import Mathlib

/-!
# Keccak-256 (Tuan-Bao/Keccak256): a shallow embedding

The three translation units share one permutation and differ in how the
message reaches the sponge:

* `Keccak256_2.cpp`      in-memory buffer, console tracing;
* `Keccak256_file.cpp`   `std::ifstream`, no tracing;
* `Keccak256_file_2.cpp` `std::ifstream`, tracing into a log stream.

Conventions of the embedding.

* `uint64_t`, `uint8_t` and `size_t` values are natural numbers; every
  operation that can leave the machine range is followed by an explicit
  reduction modulo `2^64` (or `2^8`).
* `uint64_t state[5][5]` is a list of 25 lanes in row-major C layout:
  `state[x][y]` is element `5 * x + y`.
* A `for` loop over `0 .. n-1` is a left fold over `List.range n`.
-/

namespace Keccak256

/-! ## Constants -/

/-- A message byte (`uint8_t`). -/
abbrev Byte := Fin 256

/-- The sponge state `uint64_t state[5][5]`, flattened row-major. -/
abbrev State := List Nat

def HASH_LEN : Nat := 32

def BLOCK_SIZE : Nat := 200 - HASH_LEN * 2

def NUM_ROUNDS : Nat := 24

def ROTATION : List (List Nat) :=
  [[0, 36, 3, 41, 18],
   [1, 44, 10, 45, 2],
   [62, 6, 43, 15, 61],
   [28, 55, 25, 21, 56],
   [27, 20, 39, 8, 14]]

/-- Number of values of a `uint64_t`. -/
def U64 : Nat := 2 ^ 64

/-- Number of values of a `size_t` (64-bit target). -/
def SIZE_T : Nat := 2 ^ 64

/-! ## State access -/

/-- Read `state[x][y]`. -/
def lane (a : State) (x y : Nat) : Nat := a.getD (5 * x + y) 0

/-- Write `state[x][y] = v`. -/
def setLane (a : State) (x y v : Nat) : State := a.set (5 * x + y) v

/-- Read `ROTATION[x][y]`. -/
def rotation (x y : Nat) : Nat := (ROTATION.getD x []).getD y 0

/-- The value-initialised state `uint64_t state[5][5] = {}`. -/
def zeroState : State := List.replicate 25 0

/-! ## The permutation -/

/-- Source `rotl64`: `((0U + x) << i) | (x >> ((64 - i) & 63))` on `uint64_t`. -/
def rotl64 (x : Nat) (i : Nat) : Nat :=
  ((x <<< i) % U64) ||| (x >>> ((64 - i) &&& 63))

/-- Bitwise complement `~v` of a `uint64_t`. -/
def not64 (v : Nat) : Nat := U64 - 1 - v % U64

/-- Column parities of theta: `c[x] ^= a[x][y]` starting from `c = {}`. -/
def thetaC (a : State) : List Nat :=
  (List.range 5).foldl
    (fun c x => (List.range 5).foldl (fun c y => c.set x (c.getD x 0 ^^^ lane a x y)) c)
    (List.replicate 5 0)

/-- Second loop nest of theta: `a[x][y] ^= d` with
`d = c[(x + 4) % 5] ^ rotl64(c[(x + 1) % 5], 1)`. -/
def thetaD (c : List Nat) (a : State) : State :=
  (List.range 5).foldl
    (fun a x =>
      let d := c.getD ((x + 4) % 5) 0 ^^^ rotl64 (c.getD ((x + 1) % 5) 0) 1
      (List.range 5).foldl (fun a y => setLane a x y (lane a x y ^^^ d)) a)
    a

/-- Theta step of one round. -/
def theta (a : State) : State := thetaD (thetaC a) a

/-- Rho and pi: `b[y][(x * 2 + y * 3) % 5] = rotl64(a[x][y], ROTATION[x][y])`.
The array `b` is declared without initialiser; `b0` is its prior content. -/
def rhoPi (b0 : State) (a : State) : State :=
  (List.range 5).foldl
    (fun b x => (List.range 5).foldl
      (fun b y => setLane b y ((x * 2 + y * 3) % 5) (rotl64 (lane a x y) (rotation x y))) b)
    b0

/-- Chi: `a[x][y] = b[x][y] ^ (~b[(x + 1) % 5][y] & b[(x + 2) % 5][y])`. -/
def chi (b : State) (a : State) : State :=
  (List.range 5).foldl
    (fun a x => (List.range 5).foldl
      (fun a y => setLane a x y
        (lane b x y ^^^ (not64 (lane b ((x + 1) % 5) y) &&& lane b ((x + 2) % 5) y))) a)
    a

/-- One pass of the iota loop body:
`a[0][0] ^= (uint64_t)(r & 1) << ((1 << j) - 1);`
`r = (uint8_t)((r << 1) ^ ((r >> 7) * 0x171));`. -/
def iotaStep (ar : State × Nat) (j : Nat) : State × Nat :=
  (setLane ar.1 0 0 (lane ar.1 0 0 ^^^ (((ar.2 &&& 1) <<< ((1 <<< j) - 1)) % U64)),
   ((ar.2 <<< 1) ^^^ ((ar.2 >>> 7) * 0x171)) % 256)

/-- Iota: the loop `for (int j = 0; j < 7; j++)` on the state and the LFSR byte. -/
def iota (ar : State × Nat) : State × Nat :=
  (List.range 7).foldl iotaStep ar

/-- Body of the round loop of `keccakF`: theta, rho-pi, chi, iota. -/
def round (ar : State × Nat) : State × Nat :=
  let a := theta ar.1
  let b := rhoPi (List.replicate 25 0) a
  let a := chi b a
  iota (a, ar.2)

/-- The state and LFSR byte after the first `n` rounds, the LFSR starting at 1. -/
def rounds (n : Nat) (state : State) : State × Nat :=
  (List.range n).foldl (fun ar _ => round ar) (state, 1)

/-- Source `keccakF` (`Keccak256_2.cpp`); the same body is `absorb` in the two
file variants. -/
def keccakF (state : State) : State := (rounds NUM_ROUNDS state).1

/-! ## In-memory hashing (`Keccak256_2.cpp`)

Console tracing (`cout`, `printState`, `printBlock`) only reads the state and
is left out. -/

/-- The statement `state[j % 5][j / 5] ^= v << ((off & 7) << 3)` with
`j = off >> 3`, for a `uint64_t` operand `v`. -/
def xorAt (state : State) (off : Nat) (v : Nat) : State :=
  let j := off >>> 3
  setLane state (j % 5) (j / 5)
    (lane state (j % 5) (j / 5) ^^^ ((v <<< ((off &&& 7) <<< 3)) % U64))

/-- First loop of source `absorb`: XOR `dataSize` bytes of `data` into the state. -/
def xorData (state : State) (data : List Nat) (dataSize : Nat) : State :=
  (List.range dataSize).foldl (fun st i => xorAt st i (data.getD i 0)) state

/-- Source `absorb(state, data, dataSize)` of `Keccak256_2.cpp`. -/
def absorb (state : State) (data : List Nat) (dataSize : Nat) : State :=
  keccakF (xorData state data dataSize)

/-- Source `paddedLen = ((len + 1 + BLOCK_SIZE - 1) / BLOCK_SIZE) * BLOCK_SIZE`
in `size_t` arithmetic. -/
def paddedLen (len : Nat) : Nat :=
  ((((len + 1 + BLOCK_SIZE + SIZE_T - 1) % SIZE_T) / BLOCK_SIZE) * BLOCK_SIZE) % SIZE_T

/-- Source `memcpy(dst, src, n)` on byte buffers. -/
def memcpy (dst src : List Nat) (n : Nat) : List Nat := src.take n ++ dst.drop n

/-- The buffer `paddedMsg` as `getHash` leaves it before the block loop. -/
def paddedMsg (msg : List Byte) : List Nat :=
  let len := msg.length
  let buf := List.replicate (paddedLen len) 0
  let buf := memcpy buf (msg.map Fin.val) len
  let buf := buf.set len 0x01
  buf.set (paddedLen len - 1) (buf.getD (paddedLen len - 1) 0 ||| 0x80)

/-- Source `numBlocks = paddedLen / BLOCK_SIZE`. -/
def numBlocks (len : Nat) : Nat := paddedLen len / BLOCK_SIZE

/-- The block loop of `getHash`:
`absorb(state, &paddedMsg[i * BLOCK_SIZE], BLOCK_SIZE)` for `i < numBlocks`. -/
def absorbBlocks (state : State) (padded : List Nat) (n : Nat) : State :=
  (List.range n).foldl (fun st i => absorb st (padded.drop (i * BLOCK_SIZE)) BLOCK_SIZE) state

/-- The extraction loop shared by all three variants, on the two objects it
touches: `hashResult[i] = (uint8_t)(state[j % 5][j / 5] >> ((i & 7) << 3))`
with `j = i >> 3`. -/
def extractHash (state : State) (hashResult : List Nat) : State × List Nat :=
  (List.range HASH_LEN).foldl
    (fun m i =>
      let j := i >>> 3
      (m.1, m.2.set i ((lane m.1 (j % 5) (j / 5) >>> ((i &&& 7) <<< 3)) % 256)))
    (state, hashResult)

/-- The state of the in-memory `getHash` when the block loop has ended. -/
def finalState (msg : List Byte) : State :=
  absorbBlocks zeroState (paddedMsg msg) (numBlocks msg.length)

/-- Source `getHash(msg, len, hashResult)` of `Keccak256_2.cpp`; the result is
the content of `hashResult` on return. The extraction loop overwrites all 32
bytes of the caller's buffer, which is taken to hold zeros on entry. -/
def getHash (msg : List Byte) : List Nat :=
  (extractHash (finalState msg) (List.replicate HASH_LEN 0)).2

/-- The failure of the `assert` at the head of `getHash`. -/
inductive CallError where
  | assertion

/-- A call `getHash(msg, len, hashResult)` of `Keccak256_2.cpp` with pointers
that may be null (`none`), assertions enabled: first
`assert((msg != nullptr || len == 0) && hashResult != nullptr)`, then the body
on the `len` bytes at `msg` and the caller's buffer. -/
def getHashCall (msg : Option (List Byte)) (len : Nat) (hashResult : Option (List Nat)) :
    Except CallError (List Nat) :=
  if (msg.isSome || len == 0) && hashResult.isSome then
    Except.ok (extractHash (finalState ((msg.getD []).take len)) (hashResult.getD [])).2
  else Except.error CallError.assertion

/-- Two lowercase hexadecimal digits of a byte, as
`hex << setw(2) << setfill('0')` prints it in `main`. -/
def hexByte (v : Nat) : List Char := [Nat.digitChar (v / 16 % 16), Nat.digitChar (v % 16)]

/-- The digest as `main` of `Keccak256_2.cpp` prints it. -/
def toHex (digest : List Nat) : List Char := (digest.map hexByte).flatten

/-- The 13 bytes of the string literal hashed by `main` of `Keccak256_2.cpp`. -/
def helloWorld : List Byte := [72, 101, 108, 108, 111, 44, 32, 87, 111, 114, 108, 100, 33]

/-! ## Streamed hashing (`Keccak256_file.cpp`)

The file is read through `std::ifstream` in binary mode. Of the stream only
what `getHash` observes is kept: the bytes not yet extracted, `failbit`, and
the count reported by `gcount()`. -/

/-- An open `std::ifstream`. -/
structure IfStream where
  /-- Bytes of the file that no read has extracted yet. -/
  rest : List Byte
  /-- The stream's `failbit`; `read` sets it together with `eofbit`. -/
  failbit : Bool
  /-- Characters extracted by the last unformatted input operation. -/
  gcount : Nat

/-- A stream just opened on a file with the given content. -/
def openFile (content : List Byte) : IfStream := ⟨content, false, 0⟩

/-- Library `file.read(buffer, n)` as the C++ standard fixes it for unformatted
input: the extracted count is first set to 0; on a stream that is not good
nothing is extracted and `failbit` stays set; otherwise up to `n` characters
are stored at the front of `buffer`, and when fewer than `n` are available
`failbit | eofbit` is set. Returns the stream and the buffer. -/
def IfStream.read (file : IfStream) (buffer : List Nat) (n : Nat) : IfStream × List Nat :=
  if file.failbit then ({ file with gcount := 0 }, buffer)
  else
    let got := file.rest.take n
    ({ rest := file.rest.drop n, failbit := decide (got.length < n), gcount := got.length },
     got.map Fin.val ++ buffer.drop got.length)

/-- Conversion `static_cast<uint64_t>(buffer[i])` of a `char` holding the raw
byte `raw`. Whether plain `char` is signed is fixed by the compiler: a signed
`char` at or above `0x80` is negative and converts modulo `2^64`. -/
def charToU64 (charSigned : Bool) (raw : Nat) : Nat :=
  if charSigned && decide (128 ≤ raw) then (raw + (U64 - 256)) % U64 else raw

/-- Source `absorb(state)` of `Keccak256_file.cpp`: statement for statement
the round loop of `keccakF`. -/
def absorbFile (state : State) : State := (rounds NUM_ROUNDS state).1

/-- The variables of the streamed `getHash` that live across its read loop.
`absorbs` is a ghost counter of the calls of `absorb` made so far. -/
structure ReadLoop where
  file : IfStream
  buffer : List Nat
  bytesRead : Nat
  state : State
  absorbs : Nat

/-- Loop condition `file.read(buffer, BLOCK_SIZE) || (bytesRead = file.gcount()) > 0`
with its effects. The stream tests true when `failbit` is clear, and then the
right operand, hence the assignment to `bytesRead`, is not evaluated. -/
def readCond (m : ReadLoop) : Bool × ReadLoop :=
  let r := m.file.read m.buffer BLOCK_SIZE
  let m := { m with file := r.1, buffer := r.2 }
  if r.1.failbit then
    let m := { m with bytesRead := r.1.gcount }
    (decide (m.bytesRead > 0), m)
  else (true, m)

/-- The inner loop of the read loop: with `blockOff` starting at 0, for
`i < bytesRead` XOR `buffer[i]` at `blockOff` and increment `blockOff`.
Returns the state and `blockOff`. -/
def xorBuffer (charSigned : Bool) (state : State) (buffer : List Nat) (bytesRead : Nat) :
    State × Nat :=
  (List.range bytesRead).foldl
    (fun sb i => (xorAt sb.1 sb.2 (charToU64 charSigned (buffer.getD i 0)), sb.2 + 1))
    (state, 0)

/-- Body of the read loop. -/
def readBody (charSigned : Bool) (m : ReadLoop) : ReadLoop :=
  let sb := xorBuffer charSigned m.state m.buffer m.bytesRead
  if sb.2 = BLOCK_SIZE then { m with state := absorbFile sb.1, absorbs := m.absorbs + 1 }
  else { m with state := sb.1 }

/-- The read loop, run for at most `fuel` evaluations of its condition. -/
def readLoop (charSigned : Bool) : Nat → ReadLoop → Option ReadLoop
  | 0, _ => none
  | fuel + 1, m =>
    let c := readCond m
    if c.1 then readLoop charSigned fuel (readBody charSigned c.2) else some c.2

/-- What a run of the streamed `getHash` leaves behind. -/
structure FileRun where
  /-- Value of `bytesRead` when the read loop ended. -/
  bytesRead : Nat
  /-- The state just before the final call of `absorb`. -/
  lastBlock : State
  /-- The state after the final call of `absorb`. -/
  state : State
  /-- Number of calls of `absorb` in the whole run. -/
  absorbs : Nat
  /-- Content of `hashResult` on return. -/
  digest : List Nat

/-- The block "Final block and padding" and the extraction loop. -/
def finish (m : ReadLoop) : FileRun :=
  let blockOff := m.bytesRead
  let state := xorAt m.state blockOff 0x01
  let blockOff := BLOCK_SIZE - 1
  let state := xorAt state blockOff 0x80
  { bytesRead := m.bytesRead
    lastBlock := state
    state := absorbFile state
    absorbs := m.absorbs + 1
    digest := (extractHash (absorbFile state) (List.replicate HASH_LEN 0)).2 }

/-- The initial variables of the streamed `getHash`. -/
def initLoop (content : List Byte) : ReadLoop :=
  { file := openFile content
    buffer := List.replicate BLOCK_SIZE 0
    bytesRead := 0
    state := zeroState
    absorbs := 0 }

/-- A run of source `getHash(file, hashResult)` of `Keccak256_file.cpp` on a file
with the given content; `none` only if the fuel did not suffice. -/
def runFile (charSigned : Bool) (content : List Byte) : Option FileRun :=
  (readLoop charSigned (content.length + 2) (initLoop content)).map finish

/-- The digest written by the streamed `getHash`. -/
def getHashFile (charSigned : Bool) (content : List Byte) : Option (List Nat) :=
  (runFile charSigned content).map FileRun.digest

/-! ## Streamed hashing with tracing (`Keccak256_file_2.cpp`)

The log stream is the sequence of operands handed to `<<`. The manipulators
(`hex`, `dec`, `setw`, `setfill`) select how a number is rendered and are not
recorded. -/

/-- One operand written to the log stream. -/
inductive LogItem where
  | text (s : String)
  | num (n : Int)

/-- What has been written to the log stream so far. -/
abbrev Log := List LogItem

/-- Source `printState(state, stepName, round, log)`. -/
def printState (state : State) (stepName : String) (round : Int) (log : Log) : Log :=
  let log := log ++ [LogItem.text stepName,
    LogItem.text (if round ≥ 0 then " (Round " ++ toString round ++ ")" else ""),
    LogItem.text ":\n"]
  (List.range 5).foldl
    (fun log y =>
      (List.range 5).foldl
        (fun log x => log ++ [LogItem.num (lane state x y), LogItem.text " "]) log
        ++ [LogItem.text "\n"])
    log

/-- Source `printBlock(block, size, desc, log)`. -/
def printBlock (block : List Nat) (size : Nat) (desc : String) (log : Log) : Log :=
  (List.range size).foldl
    (fun log i => log ++ [LogItem.num (block.getD i 0), LogItem.text " "])
    (log ++ [LogItem.text desc, LogItem.text ": "])
    ++ [LogItem.text "\n"]

/-- Body of the round loop of the traced `absorb`, round index `i`. -/
def roundLog (m : (State × Nat) × Log) (i : Nat) : (State × Nat) × Log :=
  let log := m.2 ++ [LogItem.text "\n--- Round ", LogItem.num (i + 1), LogItem.text " ---\n"]
  let log := printState m.1.1 "Initial State" (i + 1) log
  let a := theta m.1.1
  let log := printState a "After Theta" (i + 1) log
  let b := rhoPi (List.replicate 25 0) a
  let log := printState b "After Rho and Pi" (i + 1) log
  let a := chi b a
  let log := printState a "After Chi" (i + 1) log
  let ar := iota (a, m.1.2)
  let log := printState ar.1 "After Iota" (i + 1) log
  (ar, log)

/-- Source `absorb(state, log)` of `Keccak256_file_2.cpp`. -/
def absorbLog (state : State) (log : Log) : State × Log :=
  let log := log ++ [LogItem.text "--- Applying Keccak-f ---\n"]
  let m := (List.range NUM_ROUNDS).foldl roundLog ((state, 1), log)
  (m.1.1, m.2)

/-- The loop variables of the traced `getHash` together with the log stream. -/
structure TracedLoop where
  core : ReadLoop
  log : Log

/-- Body of the read loop of the traced `getHash`. -/
def readBodyLog (charSigned : Bool) (m : TracedLoop) : TracedLoop :=
  let log := m.log ++ [LogItem.text "Processing Block of Size: ",
    LogItem.num m.core.bytesRead, LogItem.text " bytes\n"]
  let log := printBlock m.core.buffer m.core.bytesRead "Block Data" log
  let sb := xorBuffer charSigned m.core.state m.core.buffer m.core.bytesRead
  let log := log ++ [LogItem.text "State after XOR with block:\n"]
  let log := printState sb.1 "State After XOR" (-1) log
  if sb.2 = BLOCK_SIZE then
    let sl := absorbLog sb.1 log
    { core := { m.core with state := sl.1, absorbs := m.core.absorbs + 1 }, log := sl.2 }
  else { core := { m.core with state := sb.1 }, log := log }

/-- The read loop of the traced `getHash`; its condition is that of the
untraced one. -/
def readLoopLog (charSigned : Bool) : Nat → TracedLoop → Option TracedLoop
  | 0, _ => none
  | fuel + 1, m =>
    let c := readCond m.core
    if c.1 then readLoopLog charSigned fuel (readBodyLog charSigned { m with core := c.2 })
    else some { m with core := c.2 }

/-- Padding, final `absorb` and extraction of the traced `getHash`. -/
def finishLog (m : TracedLoop) : FileRun × Log :=
  let blockOff := m.core.bytesRead
  let state := xorAt m.core.state blockOff 0x01
  let blockOff := BLOCK_SIZE - 1
  let state := xorAt state blockOff 0x80
  let log := m.log ++ [LogItem.text "Final Block after Padding:\n"]
  let log := printState state "State Before Final Absorb" (-1) log
  let sl := absorbLog state log
  let log := sl.2 ++ [LogItem.text "Extracting hash from final state:\n"]
  let log := printState sl.1 "Final State" (-1) log
  ({ bytesRead := m.core.bytesRead
     lastBlock := state
     state := sl.1
     absorbs := m.core.absorbs + 1
     digest := (extractHash sl.1 (List.replicate HASH_LEN 0)).2 }, log)

/-- A run of source `getHash(file, hashResult, log)` of `Keccak256_file_2.cpp` on
a file with the given content and a log stream already holding `log`. -/
def runFileLog (charSigned : Bool) (content : List Byte) (log : Log) :
    Option (FileRun × Log) :=
  (readLoopLog charSigned (content.length + 2) { core := initLoop content, log := log }).map
    finishLog

/-! ## The sponge in the words of the specification

These definitions follow the specification text, not the code; the theorems
below compare them with the code. -/

/-- Padding rule: append `0x01`, zero-fill up to the next multiple of the
rate, then OR the final byte of the padded stream with `0x80`. -/
def pad (msg : List Byte) : List Nat :=
  let p := msg.map Fin.val ++ [0x01]
  let q := p ++ List.replicate ((BLOCK_SIZE - p.length % BLOCK_SIZE) % BLOCK_SIZE) 0
  q.set (q.length - 1) (q.getD (q.length - 1) 0 ||| 0x80)

/-- The rate-sized blocks of a stream, in order. -/
def blocks136 (stream : List Nat) : List (List Nat) :=
  (List.range (stream.length / 136)).map (fun i => (stream.drop (136 * i)).take 136)

/-- The little-endian word formed from a list of bytes. -/
def leWord (bytes : List Nat) : Nat := bytes.foldr (fun b w => b + 256 * w) 0

/-- The eight bytes of a 64-bit lane, least significant first. -/
def leBytes (w : Nat) : List Nat := (List.range 8).map (fun k => w / 256 ^ k % 256)

/-- Lane `j` of the sponge, in the order x first, then y: `state[j mod 5][j div 5]`. -/
def spongeLane (s : State) (j : Nat) : Nat := lane s (j % 5) (j / 5)

/-- The state XOR a block: lane `j` receives the little-endian word of block
bytes `8j .. 8j+7` (no bytes, hence the word 0, beyond the block). The lane
stored at position `p = 5x + y` is lane `j = x + 5y`. -/
def xorBlock (s : State) (blk : List Nat) : State :=
  (List.range 25).map
    (fun p => s.getD p 0 ^^^ leWord ((blk.drop (8 * (p / 5 + 5 * (p % 5)))).take 8))

/-- The 200 bytes of the state: lanes in sponge order, each little-endian. -/
def stateBytes (s : State) : List Nat :=
  ((List.range 25).map (fun j => leBytes (spongeLane s j))).flatten

/-- Squeeze: the first 32 bytes of the state. -/
def squeeze (s : State) : List Nat := (stateBytes s).take 32

/-- The standard round constants of Keccak-f[1600]. -/
def RC : List Nat :=
  [0x1, 0x8082, 0x800000000000808a,
   0x8000000080008000, 0x808b, 0x80000001,
   0x8000000080008081, 0x8000000000008009, 0x8a,
   0x88, 0x80008009, 0x8000000a,
   0x8000808b, 0x800000000000008b, 0x8000000000008089,
   0x8000000000008003, 0x8000000000008002, 0x8000000000000080,
   0x800a, 0x800000008000000a, 0x8000000080008081,
   0x8000000000008080, 0x80000001, 0x8000000080008008]

/-! ## The permutation in the words of the specification -/

/-- Column parity of theta: the XOR of the five lanes of column `x`. -/
def columnParity (a : State) (x : Nat) : Nat :=
  lane a x 0 ^^^ lane a x 1 ^^^ lane a x 2 ^^^ lane a x 3 ^^^ lane a x 4

/-- Theta as a function: lane `(x, y)` becomes
`lane(x, y) XOR C[(x + 4) mod 5] XOR rotl(C[(x + 1) mod 5], 1)`. -/
def thetaSpec (a : State) : State :=
  (List.range 25).map (fun p =>
    lane a (p / 5) (p % 5) ^^^ columnParity a ((p / 5 + 4) % 5)
      ^^^ rotl64 (columnParity a ((p / 5 + 1) % 5)) 1)

/-- Rho and pi as a function: position `(X, Y)` receives the rotated lane of
the one `(x, y)` with `(y, (2x + 3y) mod 5) = (X, Y)`, namely
`x = (X + 3Y) mod 5`, `y = X`. -/
def rhoPiSpec (a : State) : State :=
  (List.range 25).map (fun p =>
    rotl64 (lane a ((p / 5 + 3 * (p % 5)) % 5) (p / 5))
      (rotation ((p / 5 + 3 * (p % 5)) % 5) (p / 5)))

/-- Chi as a function of the post-rho-pi grid `b`. -/
def chiSpec (b : State) : State :=
  (List.range 25).map (fun p =>
    lane b (p / 5) (p % 5)
      ^^^ (not64 (lane b ((p / 5 + 1) % 5) (p % 5)) &&& lane b ((p / 5 + 2) % 5) (p % 5)))

/-- Iota of round `i` as a function: XOR the round constant into lane (0,0). -/
def iotaSpec (i : Nat) (a : State) : State := setLane a 0 0 (lane a 0 0 ^^^ RC.getD i 0)

/-- The permutation as 24 rounds `iota (chi (rhoPi (theta state)))`, round index
0 to 23 in order. -/
def keccakSpec (state : State) : State :=
  (List.range 24).foldl (fun a i => iotaSpec i (chiSpec (rhoPiSpec (thetaSpec a)))) state

/-! ## Auxiliary definitions used in the proofs -/

/-- XOR the bytes `bs` into the state at consecutive offsets from `off`. -/
def xorBytes (st : State) (off : Nat) : List Nat → State
  | [] => st
  | b :: bs => xorBytes (xorAt st off b) (off + 1) bs

/-- XOR the word `w` into sponge lane `j`. -/
def xorLane (st : State) (j w : Nat) : State :=
  setLane st (j % 5) (j / 5) (lane st (j % 5) (j / 5) ^^^ w)

/-- The bytes that follow a message whose length is `r` modulo the rate. -/
def padBytes (r : Nat) : List Nat :=
  if r = 135 then [0x81] else 1 :: (List.replicate (134 - r) 0 ++ [0x80])

/-- The value the extraction loop stores at `hashResult[i]`. -/
def digestByte (s : State) (i : Nat) : Nat :=
  (lane s ((i >>> 3) % 5) ((i >>> 3) / 5) >>> ((i &&& 7) <<< 3)) % 256

/-- The state in which the read loop of the streamed `getHash` ends. -/
def tailState (charSigned : Bool) (content : List Byte) : State :=
  (xorBuffer charSigned zeroState
    ((content.drop (136 * (content.length / 136))).map Fin.val) (content.length % 136)).1

/-- The variables of the read loop that the rest of `getHash` reads. -/
def loopOut (m : ReadLoop) : Nat × Nat × State := (m.bytesRead, m.absorbs, m.state)

/-- The run of the streamed `getHash` in closed form: the padding and the
extraction applied to `bytesRead = 0`, no earlier `absorb`, and `tailState`. -/
def closedRun (charSigned : Bool) (content : List Byte) : FileRun :=
  finish { file := openFile [], buffer := [], bytesRead := 0,
           state := tailState charSigned content, absorbs := 0 }

/-- The update of the LFSR byte in one pass of the iota loop. -/
def lfsrStep (r : Nat) : Nat := ((r <<< 1) ^^^ ((r >>> 7) * 0x171)) % 256

/-- The XOR of the values the iota loop injects for the sub-steps `js`. -/
def iotaMask (r : Nat) : List Nat → Nat
  | [] => 0
  | j :: js => (((r &&& 1) <<< ((1 <<< j) - 1)) % U64) ^^^ iotaMask (lfsrStep r) js

/-- The LFSR byte after the sub-steps `js`. -/
def lfsrAfter (r : Nat) : List Nat → Nat
  | [] => r
  | _ :: js => lfsrAfter (lfsrStep r) js

/-- The LFSR byte at the start of round `n`. -/
def lfsr : Nat → Nat
  | 0 => 1
  | n + 1 => lfsrAfter (lfsr n) (List.range 7)

/-- The walk of the rho offsets: `(1, 0)` and then `(x, y) ← (y, (2x + 3y) mod 5)`. -/
def rhoWalk : Nat → Nat × Nat
  | 0 => (1, 0)
  | t + 1 => ((rhoWalk t).2, (2 * (rhoWalk t).1 + 3 * (rhoWalk t).2) % 5)

/-- The indices of `b` in the order in which the rho-pi loop nest writes them. -/
def rhoPiTargets : List (Nat × Nat) :=
  (List.range 5).flatMap (fun x => (List.range 5).map (fun y => (y, (x * 2 + y * 3) % 5)))

/-! # Theorems -/

/-! ## Bytes, words and lanes -/

theorem byte_add_eq_xor (b w : Nat) (hb : b < 256) : b + 256 * w = b ^^^ (w <<< 8) := by
  apply Nat.eq_of_testBit_eq
  intro i
  have h := Nat.testBit_mul_pow_two_add w (show b < 2 ^ 8 by omega) i
  rw [show 2 ^ 8 * w + b = b + 256 * w by ring] at h
  rw [h, Nat.testBit_xor, Nat.testBit_shiftLeft]
  by_cases hi : i < 8
  · have : ¬ (i ≥ 8) := by omega
    simp [hi, this]
  · have h2 : b.testBit i = false := by
      apply Nat.testBit_lt_two_pow
      calc b < 2 ^ 8 := by omega
        _ ≤ 2 ^ i := Nat.pow_le_pow_right (by omega) (by omega)
    have : i ≥ 8 := by omega
    simp [hi, h2, this]

theorem leWord_lt (bs : List Nat) (h : ∀ b ∈ bs, b < 256) : leWord bs < 256 ^ bs.length := by
  induction bs with
  | nil => simp [leWord]
  | cons b bs ih =>
    have hb : b < 256 := h b (by simp)
    have := ih (fun x hx => h x (by simp [hx]))
    simp only [leWord, List.foldr_cons, List.length_cons] at *
    rw [pow_succ]
    nlinarith

theorem xorBytes_append (st : State) (off : Nat) (l1 l2 : List Nat) :
    xorBytes st off (l1 ++ l2) = xorBytes (xorBytes st off l1) (off + l1.length) l2 := by
  induction l1 generalizing st off with
  | nil => simp [xorBytes]
  | cons b bs ih =>
    have e : off + (bs.length + 1) = off + 1 + bs.length := by omega
    simp only [List.cons_append, xorBytes, List.length_cons, e]
    exact ih _ _

theorem xorData_eq_xorBytes (st : State) (data : List Nat) (n : Nat) (hn : n ≤ data.length) :
    xorData st data n = xorBytes st 0 (data.take n) := by
  induction n with
  | zero => simp [xorData, xorBytes]
  | succ n ih =>
    have hlt : n < data.length := by omega
    have ih := ih (by omega)
    unfold xorData at ih ⊢
    rw [List.range_succ, List.foldl_append, ih, List.take_succ, xorBytes_append]
    simp [xorBytes, List.getD_eq_getElem?_getD, List.getElem?_eq_getElem hlt, List.length_take,
      Nat.min_eq_left (Nat.le_of_lt hlt)]

theorem xorAt_eq_xorLane (st : State) (j k b : Nat) (hk : k < 8) :
    xorAt st (8 * j + k) b = xorLane st j ((b <<< (8 * k)) % U64) := by
  have h1 : (8 * j + k) >>> 3 = j := by
    rw [Nat.shiftRight_eq_div_pow]; omega
  have h2 : (8 * j + k) &&& 7 = k := by
    rw [show (7 : Nat) = 2 ^ 3 - 1 by norm_num, Nat.and_pow_two_sub_one_eq_mod]; omega
  have h3 : k <<< 3 = 8 * k := by
    rw [Nat.shiftLeft_eq]; omega
  simp only [xorAt, xorLane, h1, h2, h3]

theorem xorLane_xorLane (st : State) (j a b : Nat) :
    xorLane (xorLane st j a) j b = xorLane st j (a ^^^ b) := by
  unfold xorLane setLane lane
  by_cases h : 5 * (j % 5) + j / 5 < st.length
  · simp [List.getD_eq_getElem?_getD, List.getElem?_set, h, Nat.xor_assoc]
  · have h' : st.length ≤ 5 * (j % 5) + j / 5 := by omega
    simp [List.set_eq_of_length_le, h']

theorem leWord_cons (b : Nat) (bs : List Nat) : leWord (b :: bs) = b + 256 * leWord bs := rfl

theorem shifted_byte_lt (b k : Nat) (hb : b < 256) (hk : k < 8) : b <<< (8 * k) < U64 := by
  rw [Nat.shiftLeft_eq, U64]
  calc b * 2 ^ (8 * k) < 256 * 2 ^ (8 * k) := by
        apply Nat.mul_lt_mul_of_pos_right hb (by positivity)
    _ = 2 ^ (8 + 8 * k) := by rw [Nat.pow_add]
    _ ≤ 2 ^ 64 := Nat.pow_le_pow_right (by norm_num) (by omega)

theorem xor_shiftLeft (a b n : Nat) : (a ^^^ b) <<< n = a <<< n ^^^ b <<< n := by
  apply Nat.eq_of_testBit_eq
  intro i
  simp only [Nat.testBit_shiftLeft, Nat.testBit_xor]
  by_cases h : i ≥ n <;> simp [h]

theorem leWord8_eq_xor (b0 b1 b2 b3 b4 b5 b6 b7 : Nat)
    (h0 : b0 < 256) (h1 : b1 < 256) (h2 : b2 < 256) (h3 : b3 < 256)
    (h4 : b4 < 256) (h5 : b5 < 256) (h6 : b6 < 256) :
    leWord [b0, b1, b2, b3, b4, b5, b6, b7] =
      b0 <<< 0 ^^^ b1 <<< 8 ^^^ b2 <<< 16 ^^^ b3 <<< 24 ^^^ b4 <<< 32 ^^^ b5 <<< 40 ^^^
        b6 <<< 48 ^^^ b7 <<< 56 := by
  simp only [leWord, List.foldr_cons, List.foldr_nil, Nat.mul_zero, Nat.add_zero]
  rw [byte_add_eq_xor b6 _ h6, byte_add_eq_xor b5 _ h5, byte_add_eq_xor b4 _ h4,
    byte_add_eq_xor b3 _ h3, byte_add_eq_xor b2 _ h2, byte_add_eq_xor b1 _ h1,
    byte_add_eq_xor b0 _ h0]
  simp only [xor_shiftLeft, ← Nat.shiftLeft_add, Nat.xor_assoc, Nat.shiftLeft_zero, Nat.reduceAdd]

theorem xorBytes_chunk (st : State) (j : Nat) (bs : List Nat) (hl : bs.length = 8)
    (hb : ∀ b ∈ bs, b < 256) :
    xorBytes st (8 * j) bs = xorLane st j (leWord bs) := by
  match bs, hl with
  | [b0, b1, b2, b3, b4, b5, b6, b7], _ =>
    simp only [List.mem_cons, List.mem_singleton, forall_eq_or_imp, forall_eq, List.not_mem_nil,
      false_implies, implies_true, and_true] at hb
    obtain ⟨h0, h1, h2, h3, h4, h5, h6, h7⟩ := hb
    rw [leWord8_eq_xor _ _ _ _ _ _ _ _ h0 h1 h2 h3 h4 h5 h6]
    simp only [xorBytes]
    rw [show 8 * j = 8 * j + 0 by rfl]
    simp only [Nat.add_assoc, Nat.reduceAdd]
    rw [xorAt_eq_xorLane _ _ 0 _ (by norm_num), xorAt_eq_xorLane _ _ 1 _ (by norm_num),
      xorAt_eq_xorLane _ _ 2 _ (by norm_num), xorAt_eq_xorLane _ _ 3 _ (by norm_num),
      xorAt_eq_xorLane _ _ 4 _ (by norm_num), xorAt_eq_xorLane _ _ 5 _ (by norm_num),
      xorAt_eq_xorLane _ _ 6 _ (by norm_num), xorAt_eq_xorLane _ _ 7 _ (by norm_num)]
    simp only [xorLane_xorLane]
    rw [Nat.mod_eq_of_lt (shifted_byte_lt b0 0 h0 (by norm_num)),
      Nat.mod_eq_of_lt (shifted_byte_lt b1 1 h1 (by norm_num)),
      Nat.mod_eq_of_lt (shifted_byte_lt b2 2 h2 (by norm_num)),
      Nat.mod_eq_of_lt (shifted_byte_lt b3 3 h3 (by norm_num)),
      Nat.mod_eq_of_lt (shifted_byte_lt b4 4 h4 (by norm_num)),
      Nat.mod_eq_of_lt (shifted_byte_lt b5 5 h5 (by norm_num)),
      Nat.mod_eq_of_lt (shifted_byte_lt b6 6 h6 (by norm_num)),
      Nat.mod_eq_of_lt (shifted_byte_lt b7 7 h7 (by norm_num))]

theorem xorBytes_take (st : State) (blk : List Nat) (m : Nat) (hm : 8 * m ≤ blk.length)
    (hb : ∀ b ∈ blk, b < 256) :
    xorBytes st 0 (blk.take (8 * m)) =
      (List.range m).foldl (fun st j => xorLane st j (leWord ((blk.drop (8 * j)).take 8))) st := by
  induction m with
  | zero => simp [xorBytes]
  | succ m ih =>
    have ih := ih (by omega)
    rw [List.range_succ, List.foldl_append, ← ih, show 8 * (m + 1) = 8 * m + 8 by ring,
      List.take_add, xorBytes_append]
    have hlen : (blk.take (8 * m)).length = 8 * m := by
      rw [List.length_take]; omega
    rw [hlen, Nat.zero_add, xorBytes_chunk]
    · rfl
    · rw [List.length_take, List.length_drop]; omega
    · intro b hmem
      exact hb b (List.mem_of_mem_drop (List.mem_of_mem_take hmem))

theorem foldl_xorLane_eq_map (st : State) (w : Nat → Nat) (hst : st.length = 25)
    (hw : ∀ j, 17 ≤ j → w j = 0) :
    (List.range 17).foldl (fun st j => xorLane st j (w j)) st =
      (List.range 25).map (fun p => st.getD p 0 ^^^ w (p / 5 + 5 * (p % 5))) := by
  rcases st with _ | ⟨a0, _ | ⟨a1, _ | ⟨a2, _ | ⟨a3, _ | ⟨a4, _ | ⟨a5, _ | ⟨a6, _ | ⟨a7, _ | ⟨a8, _ | ⟨a9, _ | ⟨a10, _ | ⟨a11, _ | ⟨a12, _ | ⟨a13, _ | ⟨a14, _ | ⟨a15, _ | ⟨a16, _ | ⟨a17, _ | ⟨a18, _ | ⟨a19, _ | ⟨a20, _ | ⟨a21, _ | ⟨a22, _ | ⟨a23, _ | ⟨a24, _ | ⟨a25, st⟩⟩⟩⟩⟩⟩⟩⟩⟩⟩⟩⟩⟩⟩⟩⟩⟩⟩⟩⟩⟩⟩⟩⟩⟩⟩
  all_goals simp at hst
  simp [List.range, List.range.loop, xorLane, setLane, lane, hw]

theorem xorData_eq_xorBlock (st : State) (data : List Nat) (hst : st.length = 25)
    (hd : 136 ≤ data.length) (hb : ∀ b ∈ data.take 136, b < 256) :
    xorData st data 136 = xorBlock st (data.take 136) := by
  have hlen : (data.take 136).length = 136 := by
    rw [List.length_take]; omega
  rw [xorData_eq_xorBytes st data 136 hd]
  have h1 := xorBytes_take st (data.take 136) 17 (by omega) hb
  rw [show 8 * 17 = 136 by norm_num, List.take_take, Nat.min_self] at h1
  rw [h1, foldl_xorLane_eq_map st _ hst]
  · rfl
  · intro j hj
    have : List.drop (8 * j) (List.take 136 data) = [] := by
      apply List.drop_eq_nil_of_le; omega
    simp [this, leWord]

theorem length_foldl_of {α : Type} (f : State → α → State)
    (h : ∀ s x, (f s x).length = s.length) (l : List α) (s : State) :
    (l.foldl f s).length = s.length := by
  induction l generalizing s with
  | nil => rfl
  | cons x xs ih => rw [List.foldl_cons, ih, h]

theorem length_setLane (a : State) (x y v : Nat) : (setLane a x y v).length = a.length := by
  simp [setLane]

theorem length_thetaD (c : List Nat) (a : State) : (thetaD c a).length = a.length := by
  unfold thetaD
  apply length_foldl_of
  intro s x
  apply length_foldl_of
  intro s y
  apply length_setLane

theorem length_chi (b a : State) : (chi b a).length = a.length := by
  unfold chi
  apply length_foldl_of
  intro s x
  apply length_foldl_of
  intro s y
  apply length_setLane

theorem length_iota (ar : State × Nat) : (iota ar).1.length = ar.1.length := by
  unfold iota
  generalize List.range 7 = l
  induction l generalizing ar with
  | nil => rfl
  | cons j js ih => rw [List.foldl_cons, ih]; simp [iotaStep, length_setLane]

theorem length_round (ar : State × Nat) : (round ar).1.length = ar.1.length := by
  simp [round, length_iota, length_chi, theta, length_thetaD]

theorem length_rounds (n : Nat) (s : State) : (rounds n s).1.length = s.length := by
  induction n with
  | zero => simp [rounds]
  | succ n ih =>
    unfold rounds at ih ⊢
    rw [List.range_succ, List.foldl_append]
    simp only [List.foldl_cons, List.foldl_nil]
    rw [length_round, ih]

theorem length_keccakF (s : State) : (keccakF s).length = s.length := length_rounds _ s
theorem paddedLen_eq (len : Nat) (h : len + 136 < 2 ^ 64) :
    paddedLen len = (len / 136 + 1) * 136 := by
  unfold paddedLen BLOCK_SIZE SIZE_T HASH_LEN
  omega

theorem set_last_replicate (k v : Nat) :
    (List.replicate (k + 1) 0).set k v = List.replicate k 0 ++ [v] := by
  rw [List.replicate_succ', List.set_append_right _ _ (by simp)]
  simp

theorem getD_append_one_replicate (l : List Nat) (n k : Nat) (hn : l.length = n) :
    (l ++ 1 :: List.replicate (k + 1) 0).getD (n + (k + 1)) 0 = 0 := by
  subst hn
  rw [List.getD_eq_getElem?_getD, List.getElem?_append_right (by omega)]
  simp [List.getElem?_replicate]

theorem paddedMsg_eq (msg : List Byte) (h : msg.length + 136 < 2 ^ 64) :
    paddedMsg msg = msg.map Fin.val ++ padBytes (msg.length % 136) := by
  have hP := paddedLen_eq msg.length h
  have hP' : paddedLen msg.length = msg.length + ((135 - msg.length % 136) + 1) := by omega
  unfold paddedMsg memcpy
  simp only [hP']
  rw [List.take_of_length_le (by simp), List.drop_replicate, Nat.add_sub_cancel_left,
    List.replicate_succ]
  rw [List.set_append_right _ _ (by simp)]
  simp only [List.length_map, Nat.sub_self, List.set_cons_zero]
  rw [show msg.length + (135 - msg.length % 136 + 1) - 1 = msg.length + (135 - msg.length % 136)
    by omega]
  rw [List.set_append_right _ _ (by simp)]
  simp only [List.length_map, Nat.add_sub_cancel_left]
  unfold padBytes
  by_cases hr : msg.length % 136 = 135
  · simp [hr]
  · obtain ⟨k, hk⟩ : ∃ k, 135 - msg.length % 136 = k + 1 := ⟨134 - msg.length % 136, by omega⟩
    have hk' : 134 - msg.length % 136 = k := by omega
    simp only [hr, if_false, hk, hk', List.set_cons_succ]
    rw [set_last_replicate, getD_append_one_replicate _ _ _ (by simp)]
    simp

theorem pad_eq (msg : List Byte) :
    pad msg = msg.map Fin.val ++ padBytes (msg.length % 136) := by
  unfold pad BLOCK_SIZE HASH_LEN
  simp only [List.length_append, List.length_map, List.length_singleton, List.length_replicate]
  have hz : (200 - 32 * 2 - (msg.length + 1) % (200 - 32 * 2)) % (200 - 32 * 2)
      = 135 - msg.length % 136 := by omega
  rw [hz, show msg.length + 1 + (135 - msg.length % 136) - 1
    = msg.length + (135 - msg.length % 136) by omega]
  rw [List.append_assoc, List.set_append_right _ _ (by simp)]
  simp only [List.length_map, Nat.add_sub_cancel_left]
  unfold padBytes
  by_cases hr : msg.length % 136 = 135
  · simp [hr]
  · obtain ⟨k, hk⟩ : ∃ k, 135 - msg.length % 136 = k + 1 := ⟨134 - msg.length % 136, by omega⟩
    have hk' : 134 - msg.length % 136 = k := by omega
    simp only [hr, if_false, hk, hk', List.singleton_append, List.set_cons_succ]
    rw [set_last_replicate, getD_append_one_replicate _ _ _ (by simp)]
    simp
theorem extract_fold (s : State) (h : List Nat) (n : Nat) (hn : n ≤ h.length) :
    (List.range n).foldl
      (fun m i =>
        let j := i >>> 3
        (m.1, m.2.set i ((lane m.1 (j % 5) (j / 5) >>> ((i &&& 7) <<< 3)) % 256)))
      (s, h) = (s, (List.range n).map (digestByte s) ++ h.drop n) := by
  induction n with
  | zero => simp
  | succ n ih =>
    rw [List.range_succ, List.foldl_append, ih (by omega)]
    simp only [List.foldl_cons, List.foldl_nil, List.map_append, List.map_cons, List.map_nil,
      Prod.mk.injEq, true_and]
    rw [List.set_append_right _ _ (by simp)]
    rw [List.drop_eq_getElem_cons (by omega : n < h.length)]
    simp only [List.length_map, List.length_range, Nat.sub_self, List.set_cons_zero,
      List.append_assoc, List.singleton_append, digestByte]

theorem extractHash_eq (s : State) (h : List Nat) (hl : h.length = 32) :
    extractHash s h = (s, (List.range 32).map (digestByte s)) := by
  unfold extractHash HASH_LEN
  rw [extract_fold s h 32 (by omega), List.drop_eq_nil_of_le (by omega)]
  simp

theorem digestByte_eq (s : State) (i : Nat) :
    digestByte s i = spongeLane s (i / 8) / 256 ^ (i % 8) % 256 := by
  have h1 : i >>> 3 = i / 8 := by rw [Nat.shiftRight_eq_div_pow]
  have h2 : i &&& 7 = i % 8 := by
    rw [show (7 : Nat) = 2 ^ 3 - 1 by norm_num, Nat.and_pow_two_sub_one_eq_mod]
  have h3 : (i % 8) <<< 3 = 8 * (i % 8) := by rw [Nat.shiftLeft_eq]; omega
  unfold digestByte spongeLane
  rw [h1, h2, h3, Nat.shiftRight_eq_div_pow, Nat.pow_mul]

theorem map_digestByte_eq_squeeze (s : State) :
    (List.range 32).map (digestByte s) = squeeze s := by
  have : digestByte s = fun i => spongeLane s (i / 8) / 256 ^ (i % 8) % 256 :=
    funext (digestByte_eq s)
  rw [this]
  simp [squeeze, stateBytes, leBytes, List.range, List.range.loop]

theorem foldl_congr_inv {σ α : Type} (I : σ → Prop) (f g : σ → α → σ) (l : List α)
    (h : ∀ s, I s → ∀ x ∈ l, f s x = g s x ∧ I (f s x)) (s : σ) (hs : I s) :
    l.foldl f s = l.foldl g s ∧ I (l.foldl f s) := by
  induction l generalizing s with
  | nil => exact ⟨rfl, hs⟩
  | cons x xs ih =>
    have hx := h s hs x (by simp)
    rw [List.foldl_cons, List.foldl_cons, ← hx.1]
    exact ih (fun s hs y hy => h s hs y (by simp [hy])) _ hx.2

theorem padBytes_lt (r b : Nat) (hb : b ∈ padBytes r) : b < 256 := by
  unfold padBytes at hb
  split at hb
  · simp at hb; omega
  · simp only [List.mem_cons, List.mem_append, List.mem_replicate, List.mem_singleton,
      List.not_mem_nil, or_false] at hb
    omega

theorem length_padBytes (r : Nat) (hr : r < 136) : (padBytes r).length = 136 - r := by
  unfold padBytes
  split
  · simp; omega
  · simp; omega

theorem paddedMsg_lt (msg : List Byte) (h : msg.length + 136 < 2 ^ 64) (b : Nat)
    (hb : b ∈ paddedMsg msg) : b < 256 := by
  rw [paddedMsg_eq msg h, List.mem_append] at hb
  rcases hb with hb | hb
  · obtain ⟨x, _, rfl⟩ := List.mem_map.mp hb
    exact x.isLt
  · exact padBytes_lt _ _ hb

theorem length_paddedMsg (msg : List Byte) (h : msg.length + 136 < 2 ^ 64) :
    (paddedMsg msg).length = (msg.length / 136 + 1) * 136 := by
  rw [paddedMsg_eq msg h, List.length_append, List.length_map,
    length_padBytes _ (Nat.mod_lt _ (by norm_num))]
  omega

theorem numBlocks_eq (len : Nat) (h : len + 136 < 2 ^ 64) : numBlocks len = len / 136 + 1 := by
  unfold numBlocks
  rw [paddedLen_eq len h]
  unfold BLOCK_SIZE HASH_LEN
  omega

theorem absorbBlocks_eq_foldl_blocks (s : State) (hs : s.length = 25) (padded : List Nat)
    (n : Nat) (hlen : padded.length = n * 136) (hb : ∀ b ∈ padded, b < 256) :
    absorbBlocks s padded n =
      (blocks136 padded).foldl (fun s blk => keccakF (xorBlock s blk)) s := by
  unfold absorbBlocks blocks136
  rw [List.foldl_map, hlen, Nat.mul_div_cancel _ (by norm_num : 0 < 136)]
  refine (foldl_congr_inv (fun s => s.length = 25) _ _ _ ?_ s hs).1
  intro st hst i hi
  have hi' : i < n := List.mem_range.mp hi
  have hdrop : 136 ≤ (padded.drop (i * BLOCK_SIZE)).length := by
    rw [List.length_drop, hlen]
    unfold BLOCK_SIZE HASH_LEN
    have : (i + 1) * 136 ≤ n * 136 := Nat.mul_le_mul_right _ hi'
    omega
  have hx := xorData_eq_xorBlock st (padded.drop (i * BLOCK_SIZE)) hst hdrop
    (fun b hb' => hb b (List.mem_of_mem_drop (List.mem_of_mem_take hb')))
  constructor
  · simp only [absorb]
    rw [show BLOCK_SIZE = 136 by rfl] at hx ⊢
    rw [hx, Nat.mul_comm i 136]
  · simp only [absorb]
    rw [length_keccakF]
    rw [show BLOCK_SIZE = 136 by rfl] at hx ⊢
    rw [hx]
    simp [xorBlock]

/-! ## The read loop of the streamed variants -/

theorem xorBuffer_snd (b : Bool) (s : State) (buf : List Nat) (n : Nat) :
    (xorBuffer b s buf n).2 = n := by
  unfold xorBuffer
  have key : ∀ (l : List Nat) (sb : State × Nat),
      (l.foldl (fun sb i => (xorAt sb.1 sb.2 (charToU64 b (buf.getD i 0)), sb.2 + 1)) sb).2
        = sb.2 + l.length := by
    intro l
    induction l with
    | nil => intro sb; rfl
    | cons x xs ih => intro sb; rw [List.foldl_cons, ih, List.length_cons]; omega
  rw [key, List.length_range, Nat.zero_add]

theorem xorBuffer_append (b : Bool) (s : State) (l l2 : List Nat) (n : Nat) (hn : n ≤ l.length) :
    xorBuffer b s (l ++ l2) n = xorBuffer b s l n := by
  unfold xorBuffer
  apply List.foldl_ext
  intro sb i hi
  have hi' : i < l.length := by have := List.mem_range.mp hi; omega
  simp [List.getElem?_append_left hi']

theorem readCond_full (m : ReadLoop) (hf : m.file.failbit = false)
    (hlen : 136 ≤ m.file.rest.length) :
    readCond m = (true,
      { m with file := ⟨m.file.rest.drop 136, false, 136⟩,
               buffer := (m.file.rest.take 136).map Fin.val ++ m.buffer.drop 136 }) := by
  have hmin : min 136 m.file.rest.length = 136 := by omega
  simp [readCond, IfStream.read, hf, BLOCK_SIZE, HASH_LEN, hmin]

theorem readCond_short (m : ReadLoop) (hf : m.file.failbit = false)
    (hlen : m.file.rest.length < 136) :
    readCond m = (decide (0 < m.file.rest.length),
      { m with file := ⟨[], true, m.file.rest.length⟩,
               buffer := m.file.rest.map Fin.val ++ m.buffer.drop m.file.rest.length,
               bytesRead := m.file.rest.length }) := by
  have hmin : min 136 m.file.rest.length = m.file.rest.length := by omega
  have hd : List.drop 136 m.file.rest = [] := List.drop_eq_nil_of_le (by omega)
  have ht : List.take 136 m.file.rest = m.file.rest := List.take_of_length_le (by omega)
  simp [readCond, IfStream.read, hf, BLOCK_SIZE, HASH_LEN, hmin, hlen, hd, ht]

theorem readCond_failed (m : ReadLoop) (hf : m.file.failbit = true) :
    readCond m = (false, { m with file := { m.file with gcount := 0 }, bytesRead := 0 }) := by
  simp [readCond, IfStream.read, hf]

theorem readBody_zero (b : Bool) (m : ReadLoop) (h : m.bytesRead = 0) : readBody b m = m := by
  cases m
  simp only at h
  subst h
  simp [readBody, xorBuffer, BLOCK_SIZE, HASH_LEN]

theorem readBody_short (b : Bool) (m : ReadLoop) (h : m.bytesRead < 136) :
    readBody b m = { m with state := (xorBuffer b m.state m.buffer m.bytesRead).1 } := by
  have : ¬ m.bytesRead = 136 := by omega
  simp [readBody, xorBuffer_snd, BLOCK_SIZE, HASH_LEN, this]

theorem readLoop_spec (b : Bool) (k : Nat) : ∀ (m : ReadLoop) (fuel : Nat),
    m.file.rest.length / 136 = k → m.file.failbit = false →
    m.bytesRead = 0 → k + 2 ≤ fuel →
    (readLoop b fuel m).map loopOut = some (0, m.absorbs, (xorBuffer b m.state
        ((m.file.rest.drop (136 * (m.file.rest.length / 136))).map Fin.val)
        (m.file.rest.length % 136)).1) := by
  induction k with
  | zero =>
    intro m fuel hk hf hbr hfuel
    have hlen : m.file.rest.length < 136 := by omega
    obtain ⟨fuel1, rfl⟩ : ∃ f, fuel = f + 1 := ⟨fuel - 1, by omega⟩
    obtain ⟨fuel2, rfl⟩ : ∃ f, fuel1 = f + 1 := ⟨fuel1 - 1, by omega⟩
    have hmod : m.file.rest.length % 136 = m.file.rest.length := Nat.mod_eq_of_lt hlen
    rw [readLoop, readCond_short m hf hlen]
    by_cases h0 : m.file.rest.length = 0
    · simp [h0, loopOut, xorBuffer]
    · have hpos : 0 < m.file.rest.length := by omega
      simp only [hpos, decide_True, if_true]
      rw [readBody_short _ _ (by simpa using hlen), readLoop, readCond_failed _ rfl]
      simp only [Bool.false_eq_true, if_false, Option.map_some', loopOut, hk, Nat.mul_zero,
        List.drop_zero, hmod]
      rw [xorBuffer_append _ _ _ _ _ (by simp)]
  | succ k ih =>
    intro m fuel hk hf hbr hfuel
    have hlen : 136 ≤ m.file.rest.length := by
      by_contra hc
      have : m.file.rest.length / 136 = 0 := Nat.div_eq_of_lt (by omega)
      omega
    obtain ⟨fuel1, rfl⟩ : ∃ f, fuel = f + 1 := ⟨fuel - 1, by omega⟩
    rw [readLoop, readCond_full m hf hlen]
    simp only [if_true]
    rw [readBody_zero _ _ (by simpa using hbr)]
    have h := ih
      { m with file := ⟨m.file.rest.drop 136, false, 136⟩,
               buffer := (m.file.rest.take 136).map Fin.val ++ m.buffer.drop 136 } fuel1
      (by simp only [List.length_drop]; omega) rfl hbr (by omega)
    rw [h]
    simp only [List.drop_drop, List.length_drop]
    have e1 : 136 + 136 * ((m.file.rest.length - 136) / 136) = 136 * (m.file.rest.length / 136) := by
      omega
    have e2 : (m.file.rest.length - 136) % 136 = m.file.rest.length % 136 := by omega
    rw [e1, e2]

theorem finish_congr (m m2 : ReadLoop) (h : loopOut m = loopOut m2) : finish m = finish m2 := by
  simp only [loopOut, Prod.mk.injEq] at h
  obtain ⟨h1, h2, h3⟩ := h
  simp [finish, h1, h2, h3]

theorem runFile_eq (b : Bool) (content : List Byte) :
    runFile b content = some (closedRun b content) := by
  have h := readLoop_spec b (content.length / 136) (initLoop content) (content.length + 2)
    rfl rfl rfl (by have := Nat.div_le_self content.length 136; omega)
  unfold runFile
  cases hr : readLoop b (content.length + 2) (initLoop content) with
  | none => rw [hr] at h; simp at h
  | some m =>
    rw [hr] at h
    simp only [Option.map_some', Option.some.injEq] at h ⊢
    apply finish_congr
    rw [h]
    rfl

theorem closedRun_of_multiple (b : Bool) (content : List Byte) (h : content.length % 136 = 0) :
    closedRun b content = closedRun b [] := by
  simp [closedRun, tailState, h, xorBuffer]

theorem foldl_fst {α β γ : Type} (f : α → γ → α) (g : α × β → γ → α × β)
    (h : ∀ m c, (g m c).1 = f m.1 c) (l : List γ) (m : α × β) :
    (l.foldl g m).1 = l.foldl f m.1 := by
  induction l generalizing m with
  | nil => rfl
  | cons c cs ih => rw [List.foldl_cons, List.foldl_cons, ih, h]

theorem absorbLog_fst (s : State) (log : Log) : (absorbLog s log).1 = absorbFile s := by
  unfold absorbLog absorbFile rounds
  simp only
  rw [foldl_fst (fun ar _ => round ar) roundLog (fun m c => rfl)]

theorem readBodyLog_core (b : Bool) (m : TracedLoop) :
    (readBodyLog b m).core = readBody b m.core := by
  unfold readBodyLog readBody
  simp only
  split <;> simp [absorbLog_fst]

theorem readLoopLog_core (b : Bool) (fuel : Nat) (m : TracedLoop) :
    (readLoopLog b fuel m).map TracedLoop.core = readLoop b fuel m.core := by
  induction fuel generalizing m with
  | zero => rfl
  | succ fuel ih =>
    rw [readLoopLog, readLoop]
    split
    · rw [ih, readBodyLog_core]
    · rfl

theorem finishLog_fst (m : TracedLoop) : (finishLog m).1 = finish m.core := by
  unfold finishLog finish
  dsimp only
  rw [absorbLog_fst]

theorem runFileLog_fst (b : Bool) (content : List Byte) (log : Log) :
    (runFileLog b content log).map Prod.fst = runFile b content := by
  unfold runFileLog runFile
  rw [← readLoopLog_core b _ { core := initLoop content, log := log }]
  simp only [Option.map_map]
  have e : (Prod.fst ∘ finishLog) = (finish ∘ TracedLoop.core) := funext finishLog_fst
  rw [e]

theorem foldl_extends {γ : Type} (f : Log → γ → Log) (h : ∀ log c, log <+: f log c)
    (l : List γ) (log : Log) : log <+: l.foldl f log := by
  induction l generalizing log with
  | nil => exact List.prefix_refl _
  | cons c cs ih => exact (h log c).trans (ih _)

theorem foldl_snd_extends {α γ : Type} (g : α × Log → γ → α × Log)
    (h : ∀ m c, m.2 <+: (g m c).2) (l : List γ) (m : α × Log) : m.2 <+: (l.foldl g m).2 := by
  induction l generalizing m with
  | nil => exact List.prefix_refl _
  | cons c cs ih => exact (h m c).trans (ih _)

theorem printState_extends (state : State) (stepName : String) (r : Int) (log : Log) :
    log <+: printState state stepName r log := by
  unfold printState
  refine (List.prefix_append _ _).trans (foldl_extends _ ?_ _ _)
  intro lg y
  exact (foldl_extends _ (fun l x => List.prefix_append _ _) _ _).trans (List.prefix_append _ _)

theorem printBlock_extends (block : List Nat) (size : Nat) (desc : String) (log : Log) :
    log <+: printBlock block size desc log := by
  unfold printBlock
  exact ((List.prefix_append _ _).trans
    (foldl_extends _ (fun l x => List.prefix_append _ _) _ _)).trans (List.prefix_append _ _)

theorem roundLog_extends (m : (State × Nat) × Log) (i : Nat) : m.2 <+: (roundLog m i).2 := by
  unfold roundLog
  exact (List.prefix_append _ _).trans <| (printState_extends _ _ _ _).trans <|
    (printState_extends _ _ _ _).trans <| (printState_extends _ _ _ _).trans <|
    (printState_extends _ _ _ _).trans (printState_extends _ _ _ _)

theorem absorbLog_extends (s : State) (log : Log) : log <+: (absorbLog s log).2 := by
  unfold absorbLog
  dsimp only
  exact (List.prefix_append _ _).trans
    (foldl_snd_extends roundLog roundLog_extends (List.range NUM_ROUNDS) ((s, 1), _))

theorem readBodyLog_extends (b : Bool) (m : TracedLoop) : m.log <+: (readBodyLog b m).log := by
  unfold readBodyLog
  dsimp only
  split
  · dsimp only
    exact (List.prefix_append _ _).trans <| (printBlock_extends _ _ _ _).trans <|
      (List.prefix_append _ _).trans <| (printState_extends _ _ _ _).trans (absorbLog_extends _ _)
  · dsimp only
    exact (List.prefix_append _ _).trans <| (printBlock_extends _ _ _ _).trans <|
      (List.prefix_append _ _).trans (printState_extends _ _ _ _)

theorem readLoopLog_extends (b : Bool) (fuel : Nat) (m m2 : TracedLoop)
    (h : readLoopLog b fuel m = some m2) : m.log <+: m2.log := by
  induction fuel generalizing m with
  | zero => simp [readLoopLog] at h
  | succ fuel ih =>
    rw [readLoopLog] at h
    split at h
    · have h1 := readBodyLog_extends b { m with core := (readCond m.core).2 }
      exact h1.trans (ih _ h)
    · simp only [Option.some.injEq] at h
      subst h
      exact List.prefix_refl _

theorem finishLog_extends (m : TracedLoop) : m.log <+: (finishLog m).2 := by
  unfold finishLog
  exact (List.prefix_append _ _).trans <| (printState_extends _ _ _ _).trans <|
    (absorbLog_extends _ _).trans <| (List.prefix_append _ _).trans (printState_extends _ _ _ _)

theorem runFileLog_extends (b : Bool) (content : List Byte) (log : Log) (r : FileRun × Log)
    (h : runFileLog b content log = some r) : log <+: r.2 := by
  unfold runFileLog at h
  cases hl : readLoopLog b (content.length + 2) { core := initLoop content, log := log } with
  | none => rw [hl] at h; simp at h
  | some m2 =>
    rw [hl] at h
    simp only [Option.map_some', Option.some.injEq] at h
    subst h
    exact (readLoopLog_extends b _ _ _ hl).trans (finishLog_extends m2)

/-! ## The iota loop and the LFSR -/

theorem xorLane_zero (a : State) : xorLane a 0 0 = a := by
  cases a with
  | nil => rfl
  | cons x t => simp [xorLane, setLane, lane]

theorem foldl_iotaStep (js : List Nat) (a : State) (r : Nat) :
    js.foldl iotaStep (a, r) = (xorLane a 0 (iotaMask r js), lfsrAfter r js) := by
  induction js generalizing a r with
  | nil => simp [iotaMask, lfsrAfter, xorLane_zero]
  | cons j js ih =>
    rw [List.foldl_cons]
    have : iotaStep (a, r) j = (xorLane a 0 (((r &&& 1) <<< ((1 <<< j) - 1)) % U64), lfsrStep r) :=
      rfl
    rw [this, ih, xorLane_xorLane]
    rfl

theorem iota_eq (a : State) (r : Nat) :
    iota (a, r) = (setLane a 0 0 (lane a 0 0 ^^^ iotaMask r (List.range 7)),
      lfsrAfter r (List.range 7)) := by
  unfold iota
  rw [foldl_iotaStep]
  rfl

theorem round_snd (ar : State × Nat) : (round ar).2 = lfsrAfter ar.2 (List.range 7) := by
  unfold round
  simp only [iota_eq]

theorem rounds_succ (n : Nat) (s : State) : rounds (n + 1) s = round (rounds n s) := by
  unfold rounds
  rw [List.range_succ, List.foldl_append]
  simp only [List.foldl_cons, List.foldl_nil]

theorem rounds_snd (n : Nat) (s : State) : (rounds n s).2 = lfsr n := by
  induction n with
  | zero => rfl
  | succ n ih => rw [rounds_succ, round_snd, ih, lfsr]

theorem iotaMask_lfsr : ∀ i : Fin 24, iotaMask (lfsr i) (List.range 7) = RC.getD i 0 := by
  decide

/-! ## The padded buffer -/

theorem padBytes_getElem_opt (r : Nat) (hr : r < 136) (k : Nat) :
    (padBytes r)[k]? =
      if k = 135 - r then some (if r = 135 then 0x81 else 0x80)
      else if k = 0 then some 1
      else if k < 135 - r then some 0 else none := by
  unfold padBytes
  by_cases h : r = 135
  · subst h
    cases k with
    | zero => simp
    | succ k => simp
  · simp only [h, if_false]
    cases k with
    | zero =>
      have : ¬ (0 = 135 - r) := by omega
      simp [this]
    | succ k =>
      simp only [List.getElem?_cons_succ, List.getElem?_append, List.length_replicate,
        List.getElem?_replicate]
      by_cases h1 : k < 134 - r
      · have h2 : ¬ (k + 1 = 135 - r) := by omega
        have h3 : k + 1 < 135 - r := by omega
        simp [h1, h2, h3]
      · by_cases h2 : k = 134 - r
        · have h3 : k + 1 = 135 - r := by omega
          simp only [h1, h3, if_true, if_false, h]
          simp [h2]
        · have h3 : ¬ (k + 1 = 135 - r) := by omega
          have h4 : ¬ (k + 1 < 135 - r) := by omega
          have h5 : k - (134 - r) = (k - (134 - r) - 1) + 1 := by omega
          simp only [h1, h3, h4, if_false, Nat.add_one_ne_zero]
          rw [h5]
          simp

theorem paddedMsg_getElem_opt_ge (msg : List Byte) (h : msg.length + 136 < 2 ^ 64) (i : Nat)
    (hi : msg.length ≤ i) :
    (paddedMsg msg)[i]? = (padBytes (msg.length % 136))[i - msg.length]? := by
  rw [paddedMsg_eq msg h, List.getElem?_append_right (by simpa using hi)]
  simp

/-! ## The round steps as functions -/

theorem rotl64_testBit (x i k : Nat) (hx : x < 2 ^ 64) (hi : i < 64) (hk : k < 64) :
    (rotl64 x i).testBit k = x.testBit ((k + 64 - i) % 64) := by
  unfold rotl64 U64
  rw [show (63 : Nat) = 2 ^ 6 - 1 by norm_num, Nat.and_pow_two_sub_one_eq_mod]
  simp only [Nat.testBit_or, Nat.testBit_mod_two_pow, Nat.testBit_shiftLeft, Nat.testBit_shiftRight,
    hk, decide_True, Bool.true_and]
  by_cases h0 : i = 0
  · subst h0
    simp [Nat.mod_eq_of_lt hk]
  · have e1 : (64 - i) % 2 ^ 6 = 64 - i := Nat.mod_eq_of_lt (by norm_num; omega)
    rw [e1]
    by_cases hki : i ≤ k
    · have e2 : (k + 64 - i) % 64 = k - i := by omega
      have e3 : x.testBit (64 - i + k) = false :=
        Nat.testBit_lt_two_pow (Nat.lt_of_lt_of_le hx (Nat.pow_le_pow_right (by norm_num) (by omega)))
      simp [hki, e2, e3]
    · have e2 : (k + 64 - i) % 64 = 64 - i + k := by omega
      simp [hki, e2]

theorem theta_eq_spec (a : State) (h : a.length = 25) : theta a = thetaSpec a := by
  rcases a with _ | ⟨a0, _ | ⟨a1, _ | ⟨a2, _ | ⟨a3, _ | ⟨a4, _ | ⟨a5, _ | ⟨a6, _ | ⟨a7, _ | ⟨a8, _ | ⟨a9, _ | ⟨a10, _ | ⟨a11, _ | ⟨a12, _ | ⟨a13, _ | ⟨a14, _ | ⟨a15, _ | ⟨a16, _ | ⟨a17, _ | ⟨a18, _ | ⟨a19, _ | ⟨a20, _ | ⟨a21, _ | ⟨a22, _ | ⟨a23, _ | ⟨a24, _ | ⟨a25, a⟩⟩⟩⟩⟩⟩⟩⟩⟩⟩⟩⟩⟩⟩⟩⟩⟩⟩⟩⟩⟩⟩⟩⟩⟩⟩
  all_goals simp at h
  simp [theta, thetaC, thetaD, thetaSpec, columnParity, List.range, List.range.loop, lane,
    setLane, Nat.xor_assoc]

theorem rhoPi_eq_spec (b a : State) (h : b.length = 25) : rhoPi b a = rhoPiSpec a := by
  rcases b with _ | ⟨b0, _ | ⟨b1, _ | ⟨b2, _ | ⟨b3, _ | ⟨b4, _ | ⟨b5, _ | ⟨b6, _ | ⟨b7, _ | ⟨b8, _ | ⟨b9, _ | ⟨b10, _ | ⟨b11, _ | ⟨b12, _ | ⟨b13, _ | ⟨b14, _ | ⟨b15, _ | ⟨b16, _ | ⟨b17, _ | ⟨b18, _ | ⟨b19, _ | ⟨b20, _ | ⟨b21, _ | ⟨b22, _ | ⟨b23, _ | ⟨b24, _ | ⟨b25, b⟩⟩⟩⟩⟩⟩⟩⟩⟩⟩⟩⟩⟩⟩⟩⟩⟩⟩⟩⟩⟩⟩⟩⟩⟩⟩
  all_goals simp at h
  simp [rhoPi, rhoPiSpec, List.range, List.range.loop, lane, setLane]

theorem chi_eq_spec (b a : State) (h : a.length = 25) : chi b a = chiSpec b := by
  rcases a with _ | ⟨a0, _ | ⟨a1, _ | ⟨a2, _ | ⟨a3, _ | ⟨a4, _ | ⟨a5, _ | ⟨a6, _ | ⟨a7, _ | ⟨a8, _ | ⟨a9, _ | ⟨a10, _ | ⟨a11, _ | ⟨a12, _ | ⟨a13, _ | ⟨a14, _ | ⟨a15, _ | ⟨a16, _ | ⟨a17, _ | ⟨a18, _ | ⟨a19, _ | ⟨a20, _ | ⟨a21, _ | ⟨a22, _ | ⟨a23, _ | ⟨a24, _ | ⟨a25, a⟩⟩⟩⟩⟩⟩⟩⟩⟩⟩⟩⟩⟩⟩⟩⟩⟩⟩⟩⟩⟩⟩⟩⟩⟩⟩
  all_goals simp at h
  simp [chi, chiSpec, List.range, List.range.loop, lane, setLane]

theorem getD_map_range (f : Nat → Nat) (n p : Nat) (hp : p < n) :
    ((List.range n).map f).getD p 0 = f p := by
  simp [List.getD_eq_getElem?_getD, List.getElem?_range hp]

theorem lane_map_range (f : Nat → Nat) (x y : Nat) (hx : x < 5) (hy : y < 5) :
    lane ((List.range 25).map f) x y = f (5 * x + y) := by
  unfold lane
  rw [getD_map_range f 25 _ (by omega)]

theorem lane_thetaSpec (a : State) (x y : Nat) (hx : x < 5) (hy : y < 5) :
    lane (thetaSpec a) x y =
      lane a x y ^^^ columnParity a ((x + 4) % 5) ^^^ rotl64 (columnParity a ((x + 1) % 5)) 1 := by
  unfold thetaSpec
  rw [lane_map_range _ x y hx hy]
  have e1 : (5 * x + y) / 5 = x := by omega
  have e2 : (5 * x + y) % 5 = y := by omega
  simp only [e1, e2]

theorem lane_rhoPiSpec (a : State) (x y : Nat) (hx : x < 5) (hy : y < 5) :
    lane (rhoPiSpec a) y ((2 * x + 3 * y) % 5) = rotl64 (lane a x y) (rotation x y) := by
  unfold rhoPiSpec
  rw [lane_map_range _ y _ hy (Nat.mod_lt _ (by norm_num))]
  have e1 : (5 * y + (2 * x + 3 * y) % 5) / 5 = y := by omega
  have e2 : (y + 3 * ((5 * y + (2 * x + 3 * y) % 5) % 5)) % 5 = x := by omega
  simp only [e1, e2]

theorem lane_chiSpec (b : State) (x y : Nat) (hx : x < 5) (hy : y < 5) :
    lane (chiSpec b) x y =
      lane b x y ^^^ (not64 (lane b ((x + 1) % 5) y) &&& lane b ((x + 2) % 5) y) := by
  unfold chiSpec
  rw [lane_map_range _ x y hx hy]
  have e1 : (5 * x + y) / 5 = x := by omega
  have e2 : (5 * x + y) % 5 = y := by omega
  simp only [e1, e2]

theorem round_eq_spec (a : State) (n : Nat) (ha : a.length = 25) (hn : n < 24) :
    round (a, lfsr n) = (iotaSpec n (chiSpec (rhoPiSpec (thetaSpec a))), lfsr (n + 1)) := by
  unfold round
  simp only
  rw [theta_eq_spec a ha, rhoPi_eq_spec _ _ (by simp), chi_eq_spec _ _ (by simp [thetaSpec]),
    iota_eq]
  have h := iotaMask_lfsr ⟨n, hn⟩
  simp only at h
  rw [h]
  rfl

theorem rounds_eq_spec (n : Nat) (hn : n ≤ 24) (s : State) (hs : s.length = 25) :
    rounds n s =
      ((List.range n).foldl (fun a i => iotaSpec i (chiSpec (rhoPiSpec (thetaSpec a)))) s,
        lfsr n) := by
  induction n with
  | zero => rfl
  | succ n ih =>
    have hl : (rounds n s).1.length = 25 := by rw [length_rounds, hs]
    rw [rounds_succ, List.range_succ, List.foldl_append]
    have ih := ih (by omega)
    rw [ih] at hl ⊢
    rw [round_eq_spec _ n hl (by omega)]
    rfl

theorem keccakF_eq_spec (s : State) (hs : s.length = 25) : keccakF s = keccakSpec s := by
  unfold keccakF keccakSpec
  rw [show NUM_ROUNDS = 24 from rfl, rounds_eq_spec 24 (Nat.le_refl _) s hs]

theorem testBit_bit_shift (b s k : Nat) (hb : b ≤ 1) (hs : s < 64) :
    ((b <<< s) % U64).testBit k = (decide (k = s) && decide (b = 1)) := by
  have h2 : (2 : Nat) ^ s < 2 ^ 64 := Nat.pow_lt_pow_right (by norm_num) hs
  rcases Nat.le_one_iff_eq_zero_or_eq_one.mp hb with h | h
  · subst h
    simp
  · subst h
    rw [Nat.shiftLeft_eq, Nat.one_mul, U64, Nat.mod_eq_of_lt h2, Nat.testBit_two_pow]
    by_cases hk : k = s
    · simp [hk]
    · have : ¬ s = k := fun e => hk e.symm
      simp [hk, this]

theorem iotaMask_testBit (r k : Nat) :
    (iotaMask r (List.range 7)).testBit k =
      ((decide (k = 0) && decide (lfsrAfter r (List.range 0) % 2 = 1)) ^^
       ((decide (k = 1) && decide (lfsrAfter r (List.range 1) % 2 = 1)) ^^
        ((decide (k = 3) && decide (lfsrAfter r (List.range 2) % 2 = 1)) ^^
         ((decide (k = 7) && decide (lfsrAfter r (List.range 3) % 2 = 1)) ^^
          ((decide (k = 15) && decide (lfsrAfter r (List.range 4) % 2 = 1)) ^^
           ((decide (k = 31) && decide (lfsrAfter r (List.range 5) % 2 = 1)) ^^
            (decide (k = 63) && decide (lfsrAfter r (List.range 6) % 2 = 1)))))))) := by
  have hle : ∀ v : Nat, v &&& 1 ≤ 1 := fun v => by
    rw [Nat.and_one_is_mod]; omega
  have hr : List.range 7 = [0, 1, 2, 3, 4, 5, 6] := rfl
  rw [hr]
  simp only [iotaMask, Nat.testBit_xor, Nat.zero_testBit, Bool.xor_false]
  rw [testBit_bit_shift _ _ _ (hle _) (by decide), testBit_bit_shift _ _ _ (hle _) (by decide),
    testBit_bit_shift _ _ _ (hle _) (by decide), testBit_bit_shift _ _ _ (hle _) (by decide),
    testBit_bit_shift _ _ _ (hle _) (by decide), testBit_bit_shift _ _ _ (hle _) (by decide),
    testBit_bit_shift _ _ _ (hle _) (by decide)]
  simp only [Nat.and_one_is_mod]
  rfl

theorem lane_setLane_zero (a : State) (v : Nat) (ha : 0 < a.length) :
    lane (setLane a 0 0 v) 0 0 = v := by
  cases a with
  | nil => simp at ha
  | cons x t => simp [lane, setLane]

theorem lane_setLane_other (a : State) (v x y : Nat) (h : 5 * x + y ≠ 0) :
    lane (setLane a 0 0 v) x y = lane a x y := by
  unfold lane setLane
  have h' : ¬ (0 = 5 * x + y) := fun e => h e.symm
  simp [List.getElem?_set, h']

theorem xor_ne_self_iff (p q : Bool) : (p ^^ q) ≠ p ↔ q = true := by
  cases p <;> cases q <;> decide

/-! ## Injectivity of the padding -/

theorem paddedMsg_at_length (msg : List Byte) (h : msg.length + 136 < 2 ^ 64) :
    (paddedMsg msg)[msg.length]? = some 1 ∨ (paddedMsg msg)[msg.length]? = some 0x81 := by
  have hr : msg.length % 136 < 136 := Nat.mod_lt _ (by norm_num)
  rw [paddedMsg_getElem_opt_ge msg h _ (Nat.le_refl _), Nat.sub_self, padBytes_getElem_opt _ hr]
  by_cases h1 : msg.length % 136 = 135
  · right; simp [h1]
  · left
    have h3 : ¬ (0 = 135 - msg.length % 136) := by omega
    simp [h3]

theorem paddedMsg_after_length (msg : List Byte) (h : msg.length + 136 < 2 ^ 64) (i : Nat)
    (hi : msg.length < i) :
    (paddedMsg msg)[i]? = some 0x80 ∨ (paddedMsg msg)[i]? = some 0 ∨ (paddedMsg msg)[i]? = none := by
  have hr : msg.length % 136 < 136 := Nat.mod_lt _ (by norm_num)
  rw [paddedMsg_getElem_opt_ge msg h _ (Nat.le_of_lt hi), padBytes_getElem_opt _ hr]
  have h0 : ¬ (i - msg.length = 0) := by omega
  by_cases h1 : i - msg.length = 135 - msg.length % 136
  · left
    have h2 : ¬ msg.length % 136 = 135 := by omega
    simp [h1, h2]
  · right
    by_cases h2 : i - msg.length < 135 - msg.length % 136
    · left; simp [h1, h0, h2]
    · right; simp [h1, h0, h2]

theorem paddedMsg_injective_aux (m1 m2 : List Byte) (h1 : m1.length + 136 < 2 ^ 64)
    (h2 : m2.length + 136 < 2 ^ 64) (hlen : m1.length ≤ m2.length)
    (heq : paddedMsg m1 = paddedMsg m2) : m1 = m2 := by
  rcases Nat.lt_or_eq_of_le hlen with hlt | he
  · exfalso
    have ha := paddedMsg_at_length m2 h2
    have hb := paddedMsg_after_length m1 h1 m2.length hlt
    rw [heq] at hb
    rcases ha with ha | ha <;> rcases hb with hb | hb | hb <;> rw [ha] at hb <;> simp at hb
  · rw [paddedMsg_eq m1 h1, paddedMsg_eq m2 h2] at heq
    have hmap := (List.append_inj heq (by simp [he])).1
    exact List.map_injective_iff.mpr Fin.val_injective hmap

theorem blocks136_getElem_opt (l : List Nat) (k : Nat) (hl : l.length % 136 = 0) :
    l[k]? = ((blocks136 l)[k / 136]?).bind (fun blk => blk[k % 136]?) := by
  unfold blocks136
  by_cases hk : k < l.length
  · have hq : k / 136 < l.length / 136 := by omega
    rw [List.getElem?_map, List.getElem?_range hq]
    simp only [Option.map_some', Option.some_bind]
    rw [List.getElem?_take_of_lt (Nat.mod_lt _ (by norm_num)), List.getElem?_drop]
    congr 1
    omega
  · have hq : ¬ k / 136 < l.length / 136 := by omega
    rw [List.getElem?_eq_none (by omega), List.getElem?_eq_none (by simp; omega)]
    rfl

theorem closedRun_lastBlock (b : Bool) (content : List Byte) :
    (closedRun b content).lastBlock =
      xorAt (xorAt (tailState b content) 0 0x01) (BLOCK_SIZE - 1) 0x80 := by
  unfold closedRun finish
  dsimp only

/-! ## Evaluated digests -/

theorem getHash_nil_eval :
    getHash [] =
      [197, 210, 70, 1, 134, 247, 35, 60, 146, 126, 125, 178, 220, 199, 3, 192,
       229, 0, 182, 83, 202, 130, 39, 59, 123, 250, 216, 4, 93, 133, 164, 112] := by
  decide!

theorem getHash_helloWorld_eval :
    getHash helloWorld =
      [172, 175, 50, 137, 215, 182, 1, 203, 209, 20, 251, 54, 196, 210, 156, 133,
       187, 253, 94, 19, 63, 20, 203, 53, 92, 63, 216, 217, 147, 103, 150, 79] := by
  decide!

theorem getHash_a_eval :
    getHash [0x61] =
      [58, 194, 37, 22, 141, 245, 66, 18, 162, 92, 28, 1, 253, 53, 190, 191,
       234, 64, 143, 218, 194, 227, 29, 221, 111, 128, 164, 187, 249, 165, 241, 203] := by
  decide!

theorem closedRun_a_eval (b : Bool) :
    (closedRun b [0x61]).digest =
      [69, 86, 151, 7, 154, 255, 160, 113, 193, 208, 0, 190, 149, 134, 62, 225,
       222, 252, 20, 63, 81, 76, 190, 174, 156, 179, 108, 30, 193, 232, 202, 182] := by
  have e : closedRun b [0x61] = closedRun true [0x61] := by
    have t : tailState b [0x61] = tailState true [0x61] := by cases b <;> decide
    unfold closedRun
    rw [t]
  rw [e]
  decide!

theorem finalState_nil :
    finalState [] = keccakF (xorAt (xorAt zeroState 0 0x01) (BLOCK_SIZE - 1) 0x80) := by
  have e : xorData zeroState ((paddedMsg []).drop (0 * BLOCK_SIZE)) BLOCK_SIZE
      = xorAt (xorAt zeroState 0 0x01) (BLOCK_SIZE - 1) 0x80 := by decide!
  have n : numBlocks ([] : List Byte).length = 1 := by decide
  have r1 : List.range 1 = [0] := rfl
  unfold finalState absorbBlocks
  rw [n, r1]
  simp only [List.foldl_cons, List.foldl_nil, absorb]
  rw [e]

theorem closedRun_digest (b : Bool) (content : List Byte) :
    (closedRun b content).digest =
      (extractHash (absorbFile (xorAt (xorAt (tailState b content) 0 0x01) (BLOCK_SIZE - 1) 0x80))
        (List.replicate HASH_LEN 0)).2 := by
  unfold closedRun finish
  dsimp only

theorem tailState_nil (b : Bool) : tailState b [] = zeroState := by
  simp [tailState, xorBuffer]

theorem closedRun_nil_digest (b : Bool) : (closedRun b []).digest = getHash [] := by
  rw [closedRun_digest, tailState_nil]
  unfold getHash
  rw [finalState_nil]
  unfold absorbFile keccakF
  rfl

/-! ## The claims -/

/-- C1: for every message whose length plus 136 fits `size_t`, the in-memory
`getHash` returns the squeeze of the state obtained from the all-zero state by
absorbing the 136-byte blocks of the padded message in order, each block being
XORed into the state and followed by one application of `keccakF`; nothing is
permuted after the last block. -/
theorem C1_getHash_is_sponge (msg : List Byte) (h : msg.length + 136 < 2 ^ 64) :
    getHash msg =
      squeeze ((blocks136 (pad msg)).foldl (fun s blk => keccakF (xorBlock s blk)) zeroState) := by
  unfold getHash finalState
  rw [extractHash_eq _ _ (by simp [HASH_LEN]), map_digestByte_eq_squeeze]
  rw [absorbBlocks_eq_foldl_blocks zeroState (by simp [zeroState]) (paddedMsg msg)
    (numBlocks msg.length)
    (by rw [length_paddedMsg msg h, numBlocks_eq _ h]) (paddedMsg_lt msg h)]
  rw [paddedMsg_eq msg h, pad_eq]

/-- C1 at the 13 bytes hashed by `main`. -/
theorem C1_getHash_is_sponge_witness :
    helloWorld.length + 136 < 2 ^ 64 ∧
    getHash helloWorld =
      squeeze
        ((blocks136 (pad helloWorld)).foldl (fun s blk => keccakF (xorBlock s blk)) zeroState) :=
  ⟨by decide, C1_getHash_is_sponge helloWorld (by decide)⟩

/-- C2 (as stated): the rendering of the digest of the empty input is not the
63-character string quoted by the specification. -/
theorem C2_empty_digest_not_as_quoted :
    toHex (getHash []) ≠
      "c5d2460186f7233c927e7db2dcc703c0e500b653ca82273b7bfad8045d85a47".toList := by
  rw [getHash_nil_eval]
  decide!

/-- C2 (amended): the in-memory `getHash` of the empty input renders as the 64
hexadecimal characters `c5d2...a470`, the published Keccak-256 value. -/
theorem C2_empty_digest :
    toHex (getHash []) =
      "c5d2460186f7233c927e7db2dcc703c0e500b653ca82273b7bfad8045d85a470".toList := by
  rw [getHash_nil_eval]
  decide!

/-- C3: the in-memory `getHash` of the 13 ASCII bytes of "Hello, World!" is the
32-byte digest rendered `acaf3289...9367964f`. -/
theorem C3_hello_world_digest :
    helloWorld = "Hello, World!".toUTF8.toList.map (fun b => Fin.ofNat b.toNat) ∧
    (getHash helloWorld).length = 32 ∧
    toHex (getHash helloWorld) =
      "acaf3289d7b601cbd114fb36c4d29c85bbfd5e133f14cb355c3fd8d99367964f".toList := by
  rw [getHash_helloWorld_eval]
  decide!

/-- C4 (failing input): on a file holding the single byte `0x61` the streamed
`getHash` does not write the digest that the in-memory `getHash` computes for
that byte, whichever the signedness of `char`. -/
theorem C4_streamed_digest_differs (charSigned : Bool) :
    getHashFile charSigned [0x61] ≠ some (getHash [0x61]) := by
  unfold getHashFile
  rw [runFile_eq, Option.map_some', closedRun_a_eval, getHash_a_eval]
  decide

/-- C5: the buffer built by the in-memory `getHash` has as length the least
multiple of 136 above `len`; it starts with the message, holds `0x01` at index
`len`, `0x00` strictly between `len` and the last index, and `0x80` ORed into
the last byte (`0x81` when `len` is the last index). -/
theorem C5_padding_rule (msg : List Byte) (h : msg.length + 136 < 2 ^ 64) :
    (paddedMsg msg).length = paddedLen msg.length ∧
    paddedLen msg.length % 136 = 0 ∧ msg.length < paddedLen msg.length ∧
    (∀ m, m % 136 = 0 → msg.length < m → paddedLen msg.length ≤ m) ∧
    (∀ i, i < msg.length → (paddedMsg msg)[i]? = msg[i]?.map Fin.val) ∧
    (paddedMsg msg)[msg.length]? =
      some (if msg.length = paddedLen msg.length - 1 then 0x81 else 0x01) ∧
    (∀ i, msg.length < i → i < paddedLen msg.length - 1 → (paddedMsg msg)[i]? = some 0x00) ∧
    (paddedMsg msg)[paddedLen msg.length - 1]? =
      some (if msg.length = paddedLen msg.length - 1 then 0x81 else 0x80) := by
  have hP := paddedLen_eq msg.length h
  have hr : msg.length % 136 < 136 := Nat.mod_lt _ (by norm_num)
  refine ⟨?_, by omega, by omega, ?_, ?_, ?_, ?_, ?_⟩
  · rw [length_paddedMsg msg h, hP]
  · intro m hm hlt; omega
  · intro i hi
    rw [paddedMsg_eq msg h, List.getElem?_append_left (by simpa using hi)]
    simp
  · rw [paddedMsg_getElem_opt_ge msg h _ (Nat.le_refl _), Nat.sub_self, padBytes_getElem_opt _ hr]
    by_cases h1 : msg.length % 136 = 135
    · have h2 : msg.length = paddedLen msg.length - 1 := by omega
      simp [h1, ← h2]
    · have h2 : ¬ msg.length = paddedLen msg.length - 1 := by omega
      have h3 : ¬ (0 = 135 - msg.length % 136) := by omega
      simp [h2, h3]
  · intro i h1 h2
    rw [paddedMsg_getElem_opt_ge msg h _ (Nat.le_of_lt h1), padBytes_getElem_opt _ hr]
    have h3 : ¬ (i - msg.length = 135 - msg.length % 136) := by omega
    have h4 : ¬ (i - msg.length = 0) := by omega
    have h5 : i - msg.length < 135 - msg.length % 136 := by omega
    simp [h3, h4, h5]
  · rw [paddedMsg_getElem_opt_ge msg h _ (by omega), padBytes_getElem_opt _ hr]
    have h3 : paddedLen msg.length - 1 - msg.length = 135 - msg.length % 136 := by omega
    by_cases h1 : msg.length % 136 = 135
    · have h2 : msg.length = paddedLen msg.length - 1 := by omega
      simp [h3, h1, ← h2]
    · have h2 : ¬ msg.length = paddedLen msg.length - 1 := by omega
      simp [h3, h1, h2]

/-- C5 at the 13 bytes hashed by `main`. -/
theorem C5_padding_rule_witness :
    helloWorld.length + 136 < 2 ^ 64 ∧
    (paddedMsg helloWorld).length = paddedLen helloWorld.length ∧
    paddedLen helloWorld.length % 136 = 0 ∧ helloWorld.length < paddedLen helloWorld.length ∧
    (∀ m, m % 136 = 0 → helloWorld.length < m → paddedLen helloWorld.length ≤ m) ∧
    (∀ i, i < helloWorld.length → (paddedMsg helloWorld)[i]? = helloWorld[i]?.map Fin.val) ∧
    (paddedMsg helloWorld)[helloWorld.length]? =
      some (if helloWorld.length = paddedLen helloWorld.length - 1 then 0x81 else 0x01) ∧
    (∀ i, helloWorld.length < i → i < paddedLen helloWorld.length - 1 →
      (paddedMsg helloWorld)[i]? = some 0x00) ∧
    (paddedMsg helloWorld)[paddedLen helloWorld.length - 1]? =
      some (if helloWorld.length = paddedLen helloWorld.length - 1 then 0x81 else 0x80) :=
  ⟨by decide, C5_padding_rule helloWorld (by decide)⟩

/-- C6: the block loop of the in-memory `getHash` runs `len / 136 + 1` times,
each pass XORing one block and permuting once; the empty input gives one pass;
when `len` is a multiple of 136 the last block starts right after the message
and is `0x01`, 134 zero bytes, `0x80`. -/
theorem C6_block_count (msg : List Byte) (h : msg.length + 136 < 2 ^ 64) :
    numBlocks msg.length = msg.length / 136 + 1 ∧
    finalState msg =
      (List.range (msg.length / 136 + 1)).foldl
        (fun st i => keccakF (xorData st ((paddedMsg msg).drop (i * 136)) 136)) zeroState ∧
    numBlocks 0 = 1 ∧
    (msg.length % 136 = 0 →
      (numBlocks msg.length - 1) * BLOCK_SIZE = msg.length ∧
      ((paddedMsg msg).drop ((numBlocks msg.length - 1) * BLOCK_SIZE)).take BLOCK_SIZE =
        0x01 :: (List.replicate 134 0x00 ++ [0x80])) := by
  have hn := numBlocks_eq msg.length h
  refine ⟨hn, ?_, by decide, ?_⟩
  · unfold finalState absorbBlocks
    rw [hn]
    rfl
  · intro hm
    have e : (numBlocks msg.length - 1) * BLOCK_SIZE = msg.length := by
      rw [hn, show BLOCK_SIZE = 136 from rfl]
      omega
    refine ⟨e, ?_⟩
    have hd : List.drop msg.length (List.map Fin.val msg) = [] :=
      List.drop_eq_nil_of_le (by simp)
    rw [e, paddedMsg_eq msg h, List.drop_append_of_le_length (by simp), hm, hd, List.nil_append]
    decide

/-- C6 at a message of 136 bytes, a whole block. -/
theorem C6_block_count_witness :
    (List.replicate 136 (0x61 : Byte)).length + 136 < 2 ^ 64 ∧
    numBlocks (List.replicate 136 (0x61 : Byte)).length
      = (List.replicate 136 (0x61 : Byte)).length / 136 + 1 :=
  ⟨by simp, (C6_block_count (List.replicate 136 0x61) (by simp)).1⟩

/-- C7 (what the code does): on a file whose length is a multiple of 136 the
streamed `getHash`, traced or not, calls `absorb` once in all, for the padding
block alone, and writes the digest of the empty input: no full block of the
file is XORed into the state or permuted. -/
theorem C7_full_blocks_skipped (charSigned : Bool) (content : List Byte)
    (h : content.length % 136 = 0) :
    (runFile charSigned content).map FileRun.absorbs = some 1 ∧
    getHashFile charSigned content = some (getHash []) ∧
    (∀ log : Log, (runFileLog charSigned content log).map (fun r => (r.1.absorbs, r.1.digest))
      = some (1, getHash [])) := by
  have hrun : runFile charSigned content = some (closedRun charSigned []) := by
    rw [runFile_eq, closedRun_of_multiple charSigned content h]
  have hd := closedRun_nil_digest charSigned
  have ha : (closedRun charSigned []).absorbs = 1 := rfl
  refine ⟨by rw [hrun, Option.map_some', ha], ?_, ?_⟩
  · unfold getHashFile
    rw [hrun, Option.map_some', hd]
  · intro log
    have hl := runFileLog_fst charSigned content log
    rw [hrun] at hl
    cases hr : runFileLog charSigned content log with
    | none => rw [hr] at hl; simp at hl
    | some r =>
      rw [hr, Option.map_some', Option.some.injEq] at hl
      rw [Option.map_some', hl, ha, hd]

/-- C7 at a file of 136 bytes, a whole block. -/
theorem C7_full_blocks_skipped_witness :
    (List.replicate 136 (0x61 : Byte)).length % 136 = 0 ∧
    (runFile true (List.replicate 136 0x61)).map FileRun.absorbs = some 1 ∧
    getHashFile true (List.replicate 136 0x61) = some (getHash []) :=
  ⟨by simp, (C7_full_blocks_skipped true (List.replicate 136 0x61) (by simp)).1,
    (C7_full_blocks_skipped true (List.replicate 136 0x61) (by simp)).2.1⟩

/-- C8: on every file content and whatever the log stream already holds, the
traced `getHash` of `Keccak256_file_2.cpp` ends, leaves the run (digest
included) that the untraced `getHash` of `Keccak256_file.cpp` leaves, and the
log stream is its former content followed by output. -/
theorem C8_tracing_preserves_digest (charSigned : Bool) (content : List Byte) (log : Log) :
    ∃ run out, runFileLog charSigned content log = some (run, log ++ out) ∧
      runFile charSigned content = some run ∧
      getHashFile charSigned content = some run.digest := by
  have h1 := runFileLog_fst charSigned content log
  have h2 := runFile_eq charSigned content
  cases hr : runFileLog charSigned content log with
  | none => rw [hr, h2] at h1; simp at h1
  | some r =>
    obtain ⟨out, hout⟩ := runFileLog_extends charSigned content log r hr
    rw [hr, Option.map_some'] at h1
    refine ⟨r.1, out, ?_, h1.symm, ?_⟩
    · rw [hout]
    · unfold getHashFile
      rw [← h1]
      rfl

/-- C9: in every call of `keccakF` the LFSR byte starts at 1, its value at the
start of round `i` does not depend on the state, and the iota loop of round
`i` changes the state exactly by XORing the standard constant `RC[i]` into
lane (0,0), for each of the 24 rounds. -/
theorem C9_round_constants (state : State) (i : Fin 24) :
    (rounds 0 state).2 = 1 ∧
    (rounds i state).2 = (rounds i zeroState).2 ∧
    (∀ a : State,
      (iota (a, (rounds i state).2)).1 = setLane a 0 0 (lane a 0 0 ^^^ RC.getD i 0)) ∧
    (rounds (i + 1) state).1 =
      (let a := chi (rhoPi (List.replicate 25 0) (theta (rounds i state).1))
          (theta (rounds i state).1)
       setLane a 0 0 (lane a 0 0 ^^^ RC.getD i 0)) := by
  refine ⟨rfl, ?_, ?_, ?_⟩
  · rw [rounds_snd, rounds_snd]
  · intro a
    rw [rounds_snd, iota_eq, iotaMask_lfsr]
  · rw [rounds_succ]
    unfold round
    simp only [iota_eq, rounds_snd, iotaMask_lfsr]

/-- C10: the extraction loop leaves the state untouched and fills the 32-byte
buffer with byte `i mod 8` of lane `i div 8`, lane `j` being
`state[j mod 5][j div 5]`: the little-endian bytes of lanes (0,0), (1,0),
(2,0), (3,0) in that order, whatever the other lanes and the buffer held. -/
theorem C10_digest_extraction (state : State) (hashResult : List Nat)
    (h : hashResult.length = 32) :
    (extractHash state hashResult).1 = state ∧
    (extractHash state hashResult).2.length = 32 ∧
    (∀ i, i < 32 → (extractHash state hashResult).2[i]? =
      some (lane state ((i / 8) % 5) ((i / 8) / 5) / 256 ^ (i % 8) % 256)) ∧
    (extractHash state hashResult).2 =
      leBytes (lane state 0 0) ++ leBytes (lane state 1 0) ++ leBytes (lane state 2 0)
        ++ leBytes (lane state 3 0) ∧
    (∀ other : State, lane other 0 0 = lane state 0 0 → lane other 1 0 = lane state 1 0 →
      lane other 2 0 = lane state 2 0 → lane other 3 0 = lane state 3 0 →
      (extractHash other hashResult).2 = (extractHash state hashResult).2) := by
  have hs : ∀ s : State, (extractHash s hashResult).2 =
      leBytes (lane s 0 0) ++ leBytes (lane s 1 0) ++ leBytes (lane s 2 0)
        ++ leBytes (lane s 3 0) := by
    intro s
    rw [extractHash_eq s hashResult h, map_digestByte_eq_squeeze]
    simp [squeeze, stateBytes, leBytes, spongeLane, List.range, List.range.loop]
  refine ⟨by rw [extractHash_eq state hashResult h], by rw [extractHash_eq state hashResult h]; simp,
    ?_, hs state, ?_⟩
  · intro i hi
    rw [extractHash_eq state hashResult h]
    simp only [List.getElem?_map, List.getElem?_range hi, Option.map_some', digestByte_eq,
      spongeLane]
  · intro other h0 h1 h2 h3
    rw [hs other, hs state, h0, h1, h2, h3]

/-- C10 at the all-zero state and a zeroed buffer. -/
theorem C10_digest_extraction_witness :
    (List.replicate 32 0).length = 32 ∧
    (extractHash zeroState (List.replicate 32 0)).1 = zeroState :=
  ⟨by decide, (C10_digest_extraction zeroState (List.replicate 32 0) (by decide)).1⟩

/-- C11: the call fails on the assertion exactly when the message pointer is
null with a non-zero length or the output pointer is null; with a null message
pointer and length 0 it returns the digest of the empty sequence, and with any
byte sequence present it returns that sequence's digest. -/
theorem C11_precondition (msg : Option (List Byte)) (len : Nat)
    (hashResult : Option (List Nat)) :
    (getHashCall msg len hashResult = Except.error CallError.assertion ↔
      (msg = none ∧ len ≠ 0) ∨ hashResult = none) ∧
    (∀ buf : List Nat, buf.length = 32 →
      getHashCall none 0 (some buf) = Except.ok (getHash [])) ∧
    (∀ (bytes : List Byte) (buf : List Nat), buf.length = 32 →
      getHashCall (some bytes) bytes.length (some buf) = Except.ok (getHash bytes)) := by
  have hbuf : ∀ (s : State) (buf : List Nat), buf.length = 32 →
      (extractHash s buf).2 = (extractHash s (List.replicate HASH_LEN 0)).2 := by
    intro s buf hl
    rw [extractHash_eq s buf hl, extractHash_eq s _ (by simp [HASH_LEN])]
  refine ⟨?_, ?_, ?_⟩
  · unfold getHashCall
    cases msg <;> cases hashResult <;> by_cases hl : len = 0 <;> simp [hl]
  · intro buf hl
    unfold getHashCall getHash
    simp only [Option.isSome_none, Option.isSome_some, beq_self_eq_true, Bool.or_true,
      Bool.and_self, if_true, Option.getD_none, Option.getD_some, List.take_nil]
    rw [hbuf _ buf hl]
  · intro bytes buf hl
    unfold getHashCall getHash
    simp only [Option.isSome_some, Bool.true_or, Bool.and_self, if_true, Option.getD_some,
      List.take_length]
    rw [hbuf _ buf hl]

/-- C12: on a 5x5 state the loop nests of `keccakF` compute the functional
steps: theta XORs `C[(x+4) mod 5] XOR rotl(C[(x+1) mod 5], 1)` into lane
`(x, y)`, `C` being the column parities of the state before theta; rho-pi puts
`rotl(lane(x, y), ROTATION[x][y])` at `(y, (2x+3y) mod 5)`; chi reads only the
post-rho-pi grid; and `keccakF` is 24 rounds `iota (chi (rhoPi (theta state)))`
for round index 0 to 23 in order. -/
theorem C12_keccakF_rounds (state : State) (h : state.length = 25) :
    keccakF state =
      (List.range 24).foldl (fun a i => iotaSpec i (chiSpec (rhoPiSpec (thetaSpec a)))) state ∧
    theta state = thetaSpec state ∧
    (∀ b0 : State, b0.length = 25 → rhoPi b0 state = rhoPiSpec state) ∧
    (∀ b : State, chi b state = chiSpec b) ∧
    (∀ x y, x < 5 → y < 5 →
      lane (theta state) x y =
        lane state x y ^^^ columnParity state ((x + 4) % 5)
          ^^^ rotl64 (columnParity state ((x + 1) % 5)) 1) ∧
    (∀ b0 : State, b0.length = 25 → ∀ x y, x < 5 → y < 5 →
      lane (rhoPi b0 state) y ((2 * x + 3 * y) % 5) = rotl64 (lane state x y) (rotation x y)) ∧
    (∀ (b : State) (x y : Nat), x < 5 → y < 5 →
      lane (chi b state) x y =
        lane b x y ^^^ (not64 (lane b ((x + 1) % 5) y) &&& lane b ((x + 2) % 5) y)) := by
  refine ⟨keccakF_eq_spec state h, theta_eq_spec state h,
    fun b0 hb => rhoPi_eq_spec b0 state hb, fun b => chi_eq_spec b state h, ?_, ?_, ?_⟩
  · intro x y hx hy
    rw [theta_eq_spec state h, lane_thetaSpec state x y hx hy]
  · intro b0 hb x y hx hy
    rw [rhoPi_eq_spec b0 state hb, lane_rhoPiSpec state x y hx hy]
  · intro b x y hx hy
    rw [chi_eq_spec b state h, lane_chiSpec b x y hx hy]

/-- C12 at the all-zero state. -/
theorem C12_keccakF_rounds_witness :
    zeroState.length = 25 ∧ theta zeroState = thetaSpec zeroState :=
  ⟨by decide, (C12_keccakF_rounds zeroState (by decide)).2.1⟩

/-- C13: for a 64-bit `x` and `0 ≤ i < 64`, `rotl64(x, i)` is
`((x * 2^i) mod 2^64) OR (x div 2^(64 - i))`, it is `x` for `i = 0`, both shift
amounts stay below 64, and bit `k` of the result is bit `(k - i) mod 64` of
`x`: a circular left rotation. -/
theorem C13_rotl64_circular (x i : Nat) (hx : x < 2 ^ 64) (hi : i < 64) :
    rotl64 x i = ((x * 2 ^ i) % 2 ^ 64) ||| (x / 2 ^ (64 - i)) ∧
    rotl64 x 0 = x ∧
    i < 64 ∧ (64 - i) &&& 63 < 64 ∧
    rotl64 x i < 2 ^ 64 ∧
    (∀ k, k < 64 → (rotl64 x i).testBit k = x.testBit ((k + 64 - i) % 64)) := by
  have hand : (64 - i) &&& 63 = (64 - i) % 64 := by
    rw [show (63 : Nat) = 2 ^ 6 - 1 by norm_num, Nat.and_pow_two_sub_one_eq_mod]
  have h0 : rotl64 x 0 = x := by
    have e : (64 - 0) &&& 63 = 0 := by decide
    unfold rotl64 U64
    rw [e, Nat.shiftLeft_zero, Nat.shiftRight_zero, Nat.mod_eq_of_lt hx, Nat.or_self]
  refine ⟨?_, h0, hi, ?_, ?_, fun k hk => rotl64_testBit x i k hx hi hk⟩
  · by_cases hz : i = 0
    · subst hz
      rw [h0, Nat.pow_zero, Nat.mul_one, Nat.mod_eq_of_lt hx, Nat.sub_zero,
        Nat.div_eq_of_lt hx, Nat.or_zero]
    · unfold rotl64 U64
      rw [hand, Nat.mod_eq_of_lt (by omega : 64 - i < 64), Nat.shiftLeft_eq,
        Nat.shiftRight_eq_div_pow]
  · rw [hand]
    exact Nat.mod_lt _ (by norm_num)
  · unfold rotl64 U64
    apply Nat.or_lt_two_pow
    · exact Nat.mod_lt _ (by positivity)
    · rw [Nat.shiftRight_eq_div_pow]
      exact Nat.lt_of_le_of_lt (Nat.div_le_self _ _) hx

/-- C13 at `x = 2^63 + 1`, `i = 1`. -/
theorem C13_rotl64_circular_witness :
    (2 ^ 63 + 1) < 2 ^ 64 ∧ 1 < 64 ∧
    rotl64 (2 ^ 63 + 1) 1 = (((2 ^ 63 + 1) * 2 ^ 1) % 2 ^ 64) ||| ((2 ^ 63 + 1) / 2 ^ (64 - 1)) :=
  ⟨by decide, by decide, (C13_rotl64_circular (2 ^ 63 + 1) 1 (by decide) (by decide)).1⟩

/-- C14: before the permutation, the in-memory `absorb` of a 136-byte block
turns lane `j` (`state[j mod 5][j div 5]`), `j = 0..16`, into its old value XOR
the little-endian word of block bytes `8j .. 8j+7`, a value below `2^64`, and
leaves lanes 17 to 24 unchanged. -/
theorem C14_block_xor_frame (state : State) (block : List Byte)
    (hs : state.length = 25) (hb : block.length = 136) :
    absorb state (block.map Fin.val) BLOCK_SIZE
      = keccakF (xorData state (block.map Fin.val) BLOCK_SIZE) ∧
    (∀ j, j < 17 →
      spongeLane (xorData state (block.map Fin.val) BLOCK_SIZE) j
        = spongeLane state j ^^^ leWord (((block.map Fin.val).drop (8 * j)).take 8) ∧
      leWord (((block.map Fin.val).drop (8 * j)).take 8) < 2 ^ 64) ∧
    (∀ j, 17 ≤ j → j < 25 →
      spongeLane (xorData state (block.map Fin.val) BLOCK_SIZE) j = spongeLane state j) := by
  have hlen : (block.map Fin.val).length = 136 := by rw [List.length_map, hb]
  have hlt : ∀ b ∈ block.map Fin.val, b < 256 := by
    intro b hmem
    obtain ⟨v, _, rfl⟩ := List.mem_map.mp hmem
    exact v.isLt
  have hx : xorData state (block.map Fin.val) BLOCK_SIZE
      = xorBlock state (block.map Fin.val) := by
    have h := xorData_eq_xorBlock state (block.map Fin.val) hs (by omega)
      (fun b hmem => hlt b (List.mem_of_mem_take hmem))
    rw [List.take_of_length_le (by omega)] at h
    exact h
  have hl : ∀ j, j < 25 → spongeLane (xorBlock state (block.map Fin.val)) j
      = spongeLane state j ^^^ leWord (((block.map Fin.val).drop (8 * j)).take 8) := by
    intro j hj
    unfold spongeLane xorBlock
    rw [lane_map_range _ _ _ (Nat.mod_lt _ (by norm_num)) (by omega)]
    have e : (5 * (j % 5) + j / 5) / 5 + 5 * ((5 * (j % 5) + j / 5) % 5) = j := by omega
    rw [e]
    rfl
  refine ⟨rfl, ?_, ?_⟩
  · intro j hj
    refine ⟨by rw [hx, hl j (by omega)], ?_⟩
    have h8 : (((block.map Fin.val).drop (8 * j)).take 8).length = 8 := by
      rw [List.length_take, List.length_drop, hlen]; omega
    have := leWord_lt (((block.map Fin.val).drop (8 * j)).take 8)
      (fun b hmem => hlt b (List.mem_of_mem_drop (List.mem_of_mem_take hmem)))
    rw [h8] at this
    exact Nat.lt_of_lt_of_le this (by norm_num)
  · intro j h17 h25
    rw [hx, hl j h25]
    have hd : (block.map Fin.val).drop (8 * j) = [] := List.drop_eq_nil_of_le (by omega)
    rw [hd]
    simp [leWord]

/-- C14 at the all-zero state and a block of 136 bytes `0x61`. -/
theorem C14_block_xor_frame_witness :
    zeroState.length = 25 ∧ (List.replicate 136 (0x61 : Byte)).length = 136 ∧
    spongeLane (xorData zeroState ((List.replicate 136 (0x61 : Byte)).map Fin.val) BLOCK_SIZE) 0
      = spongeLane zeroState 0
        ^^^ leWord ((((List.replicate 136 (0x61 : Byte)).map Fin.val).drop (8 * 0)).take 8) :=
  ⟨by decide, by simp,
    ((C14_block_xor_frame zeroState (List.replicate 136 0x61) (by decide) (by simp)).2.1 0
      (by decide)).1⟩

/-- C15: for every state and every value of the LFSR byte, the iota loop
leaves every lane but (0,0) as it is; in lane (0,0) a bit outside the positions
`2^j - 1`, `j = 0..6`, keeps its value, and bit `2^j - 1` is flipped exactly
when the LFSR byte at sub-step `j` is odd. -/
theorem C15_iota_frame (a : State) (r : Nat) (ha : a.length = 25) :
    (∀ x y, x < 5 → y < 5 → (x, y) ≠ (0, 0) → lane (iota (a, r)).1 x y = lane a x y) ∧
    (∀ k, (∀ j, j < 7 → k ≠ 2 ^ j - 1) →
      (lane (iota (a, r)).1 0 0).testBit k = (lane a 0 0).testBit k) ∧
    (∀ j, j < 7 →
      ((lane (iota (a, r)).1 0 0).testBit (2 ^ j - 1) ≠ (lane a 0 0).testBit (2 ^ j - 1) ↔
        ((List.range j).foldl iotaStep (a, r)).2 % 2 = 1)) := by
  have h00 : lane (iota (a, r)).1 0 0 = lane a 0 0 ^^^ iotaMask r (List.range 7) := by
    rw [iota_eq]
    exact lane_setLane_zero a _ (by omega)
  refine ⟨?_, ?_, ?_⟩
  · intro x y _ _ hxy
    rw [iota_eq]
    apply lane_setLane_other
    intro h0
    apply hxy
    have hx0 : x = 0 := by omega
    have hy0 : y = 0 := by omega
    rw [hx0, hy0]
  · intro k hk
    have k0 := hk 0 (by norm_num)
    have k1 := hk 1 (by norm_num)
    have k2 := hk 2 (by norm_num)
    have k3 := hk 3 (by norm_num)
    have k4 := hk 4 (by norm_num)
    have k5 := hk 5 (by norm_num)
    have k6 := hk 6 (by norm_num)
    norm_num at k0 k1 k2 k3 k4 k5 k6
    rw [h00, Nat.testBit_xor, iotaMask_testBit]
    simp [k0, k1, k2, k3, k4, k5, k6]
  · intro j hj
    rw [h00, Nat.testBit_xor, foldl_iotaStep]
    refine (xor_ne_self_iff _ _).trans ?_
    rw [iotaMask_testBit]
    simp only
    interval_cases j <;> simp

/-- C15 at the all-zero state and the LFSR byte 1 of the first round. -/
theorem C15_iota_frame_witness :
    zeroState.length = 25 ∧
    (∀ x y, x < 5 → y < 5 → (x, y) ≠ (0, 0) →
      lane (iota (zeroState, 1)).1 x y = lane zeroState x y) :=
  ⟨by decide, (C15_iota_frame zeroState 1 (by decide)).1⟩

/-- C16 (what the code does): for every file the read loop of the streamed
`getHash` ends with `bytesRead = 0`, so the byte `0x01` is XORed at block
offset 0 and `0x80` at offset 135; on the one-byte file `0x61` lane (0,0) of
the padded block is `0x60`, where padding at offset `n mod 136 = 1` gives
`0x161`. -/
theorem C16_padding_offset (charSigned : Bool) (content : List Byte) :
    (runFile charSigned content).map FileRun.bytesRead = some 0 ∧
    (runFile charSigned content).map FileRun.lastBlock =
      some (xorAt (xorAt (tailState charSigned content) 0 0x01) (BLOCK_SIZE - 1) 0x80) ∧
    (runFile charSigned [0x61]).map (fun r => lane r.lastBlock 0 0) = some 0x60 ∧
    lane (xorAt (xorAt (tailState charSigned [0x61]) (1 % 136) 0x01) (BLOCK_SIZE - 1) 0x80) 0 0
      = 0x161 := by
  have t : tailState charSigned [0x61] = tailState true [0x61] := by
    cases charSigned <;> decide
  refine ⟨?_, ?_, ?_, ?_⟩
  · rw [runFile_eq]
    rfl
  · rw [runFile_eq, Option.map_some', closedRun_lastBlock]
  · rw [runFile_eq, Option.map_some', closedRun_lastBlock, t]
    decide
  · rw [t]
    decide

/-- C17 (failing input): with a signed `char`, the byte `0x80` read into the
buffer and XORed at offset 0 puts `0xFFFFFFFFFFFFFF80` into lane (0,0), all
eight bytes of the lane, where the in-memory `absorb` puts `0x80`; the two
steps agree when `char` is unsigned or the byte is below `0x80`. -/
theorem C17_char_sign_extension :
    lane (xorAt zeroState 0 (charToU64 true 0x80)) 0 0 = 0xFFFFFFFFFFFFFF80 ∧
    lane (xorData zeroState [0x80] 1) 0 0 = 0x80 ∧
    tailState true [0x80] = xorAt zeroState 0 (charToU64 true 0x80) ∧
    (∀ (charSigned : Bool) (st : State) (o v : Nat), (charSigned = false ∨ v < 128) →
      xorAt st o (charToU64 charSigned v) = xorAt st o v) := by
  refine ⟨by decide, by decide, by decide, ?_⟩
  intro b st o v hv
  have e : charToU64 b v = v := by
    unfold charToU64
    rcases hv with hb | hlt
    · simp [hb]
    · have : ¬ 128 ≤ v := by omega
      simp [this]
  rw [e]

/-- C18: the padding of the in-memory `getHash` is injective: two different
messages, of equal or different lengths, give different padded buffers and
different sequences of 136-byte blocks. -/
theorem C18_padding_injective (m1 m2 : List Byte) (h1 : m1.length + 136 < 2 ^ 64)
    (h2 : m2.length + 136 < 2 ^ 64) (hne : m1 ≠ m2) :
    paddedMsg m1 ≠ paddedMsg m2 ∧
    blocks136 (paddedMsg m1) ≠ blocks136 (paddedMsg m2) := by
  have hp : paddedMsg m1 ≠ paddedMsg m2 := by
    intro heq
    rcases Nat.le_total m1.length m2.length with hle | hle
    · exact hne (paddedMsg_injective_aux m1 m2 h1 h2 hle heq)
    · exact hne (paddedMsg_injective_aux m2 m1 h2 h1 hle heq.symm).symm
  refine ⟨hp, ?_⟩
  intro hb
  apply hp
  have l1 : (paddedMsg m1).length % 136 = 0 := by rw [length_paddedMsg m1 h1]; omega
  have l2 : (paddedMsg m2).length % 136 = 0 := by rw [length_paddedMsg m2 h2]; omega
  apply List.ext_getElem?
  intro k
  rw [blocks136_getElem_opt _ k l1, blocks136_getElem_opt _ k l2, hb]

/-- C18 at the empty message and the one-byte message `0x00`. -/
theorem C18_padding_injective_witness :
    ([] : List Byte).length + 136 < 2 ^ 64 ∧ [(0 : Byte)].length + 136 < 2 ^ 64 ∧
    ([] : List Byte) ≠ [0] ∧ paddedMsg [] ≠ paddedMsg [0] :=
  ⟨by decide, by decide, by decide,
    (C18_padding_injective [] [0] (by decide) (by decide) (by decide)).1⟩

/-- C19: the target map `(x, y) ↦ (y, (2x + 3y) mod 5)` of rho-pi is a
bijection of the 5x5 grid: the 25 writes of the loop nest go to 25 different
lanes of `b` and reach every lane, so whatever `b` held before has no effect
on `b` after the loop nor on what chi computes from it, and every rotated lane
is still in place when chi reads it. -/
theorem C19_rhoPi_writes_each_lane_once (a b0 : State) (h : b0.length = 25) :
    Function.Bijective (fun p : Fin 5 × Fin 5 => (p.2, 2 * p.1 + 3 * p.2)) ∧
    rhoPiTargets.Nodup ∧ rhoPiTargets.length = 25 ∧
    (∀ x y : Fin 5, (x.val, y.val) ∈ rhoPiTargets) ∧
    rhoPi b0 a = rhoPi (List.replicate 25 0) a ∧
    (∀ a0 : State, chi (rhoPi b0 a) a0 = chi (rhoPi (List.replicate 25 0) a) a0) ∧
    (∀ x y, x < 5 → y < 5 →
      lane (rhoPi b0 a) y ((2 * x + 3 * y) % 5) = rotl64 (lane a x y) (rotation x y)) := by
  have e : rhoPi b0 a = rhoPi (List.replicate 25 0) a := by
    rw [rhoPi_eq_spec b0 a h, rhoPi_eq_spec _ a (by simp)]
  refine ⟨by decide, by decide, by decide, by decide, e, fun a0 => by rw [e], ?_⟩
  intro x y hx hy
  rw [rhoPi_eq_spec b0 a h, lane_rhoPiSpec a x y hx hy]

/-- C19 with `b` holding 25 times the value 7 before the loop nest. -/
theorem C19_rhoPi_writes_each_lane_once_witness :
    (List.replicate 25 7).length = 25 ∧
    rhoPi (List.replicate 25 7) zeroState = rhoPi (List.replicate 25 0) zeroState :=
  ⟨by decide, (C19_rhoPi_writes_each_lane_once zeroState (List.replicate 25 7) (by decide)).2.2.2.2.1⟩

/-- C20: `ROTATION[0][0] = 0`; along the walk from `(1, 0)` with
`(x, y) ← (y, (2x + 3y) mod 5)` the entry at step `t = 0..23` is
`((t + 1)(t + 2) / 2) mod 64`, the standard rho offset; the walk visits the 24
other positions once each, and every entry of the table is below 64. -/
theorem C20_rotation_table :
    rotation 0 0 = 0 ∧
    (∀ t : Fin 24,
      rotation (rhoWalk t).1 (rhoWalk t).2 = ((t.val + 1) * (t.val + 2) / 2) % 64) ∧
    (∀ x y : Fin 5, (x, y) ≠ (0, 0) → ∃ t : Fin 24, rhoWalk t = (x.val, y.val)) ∧
    (∀ x y : Fin 5, rotation x y < 64) := by
  refine ⟨by decide, by decide, by decide, by decide⟩

end Keccak256
